import Mathlib

/-!
A shallow embedding of the ring buffer implementation in `src/ringbuffer.c`
(`ringbuffer-c`), together with proofs about its specified behaviour.

Modelling conventions:
* the backing storage is a `List Nat` whose entries are the byte values held
  in the `uint8_t` array (`rb->buffer`); its length is the capacity
  (`rb->size`);
* `size_t` values are modelled as `Nat`; at the places where `size_t`
  arithmetic can wrap around, the wraparound is made explicit with
  `% 2 ^ 64` (`szAdd`, `szSub`, `szOfInt`); `sizeof(size_t)` is `8`;
* the length prefix written by `(uint8_t*)&len` is the little-endian byte
  image of the value (`natToBytesLE`), and reading a prefix back into a
  `size_t` is `bytesToNatLE`;
* a C function that fills a caller-supplied output buffer is modelled as
  returning the list of bytes it stores there; a C function that mutates
  the ring buffer through its pointer is modelled as returning the new
  `Ringbuffer` value (functions that perform no assignment to `rb` fields
  return the input state unchanged);
* the null-pointer guard branches of the C code are outside the model: the
  model corresponds to calls with valid pointers.
-/

namespace Ringbuf

/-- Value of `sizeof(size_t)` on the LP64 reference platform. -/
def szLen : Nat := 8

/-- The modulus of `size_t` arithmetic, `2 ^ 64`. -/
def szMod : Nat := 2 ^ 64

/-- Addition of two `size_t` values (wraps modulo `2 ^ 64`). -/
def szAdd (a b : Nat) : Nat := (a + b) % szMod

/-- Subtraction `a - b` of two `size_t` values (wraps modulo `2 ^ 64`). -/
def szSub (a b : Nat) : Nat := (a + szMod - b % szMod) % szMod

/-- Conversion of a C `int` value to `size_t` (reduction modulo `2 ^ 64`). -/
def szOfInt (i : Int) : Nat := (i % (szMod : Int)).toNat

/-- Conversion of a `size_t` value below `2 ^ 64` to a C `int`
(two's-complement reinterpretation, as on the reference platform). -/
def intOfSz (n : Nat) : Int := if n < 2 ^ 63 then (n : Int) else (n : Int) - (szMod : Int)

/-- The `w` little-endian bytes stored in memory for the `size_t` value `v`
(the memory image read through `(uint8_t*)&v`). -/
def natToBytesLE : Nat → Nat → List Nat
  | 0, _ => []
  | w + 1, v => v % 256 :: natToBytesLE w (v / 256)

/-- The `size_t` value obtained by reading a little-endian byte sequence
back from memory (the effect of `memcpy((uint8_t*)&bl, ...)`). -/
def bytesToNatLE : List Nat → Nat
  | [] => 0
  | b :: bs => b + 256 * bytesToNatLE bs

/-- `memcpy(buf + pos, data, data.length)`: overwrite the bytes of `buf`
starting at index `pos` with the bytes of `data`. -/
def writeBytes (buf : List Nat) (pos : Nat) : List Nat → List Nat
  | [] => buf
  | d :: ds => writeBytes (buf.set pos d) (pos + 1) ds

/-- The `ringbuffer_t` struct of `ringbuffer.h`: backing storage `buffer`,
capacity `size`, live byte count `len`, write index `iw`, read index `ir`. -/
structure Ringbuffer where
  size : Nat
  buffer : List Nat
  len : Nat
  iw : Nat
  ir : Nat
deriving DecidableEq

/-- `ringbuffer_clear`: reset `len`, `iw`, `ir` to zero; returns the size. -/
def ringbuffer_clear (rb : Ringbuffer) : Int × Ringbuffer :=
  (Int.ofNat rb.size, { rb with len := 0, iw := 0, ir := 0 })

/-- `ringbuffer_init`: bind the memory region `mem` (of `memlen` bytes, its
length) and reset the ring buffer via `ringbuffer_clear`. -/
def ringbuffer_init (mem : List Nat) : Ringbuffer :=
  (ringbuffer_clear { size := mem.length, buffer := mem, len := 0, iw := 0, ir := 0 }).2

/-- `ringbuffer_get_length`: return the number of live bytes. -/
def ringbuffer_get_length (rb : Ringbuffer) : Int := Int.ofNat rb.len

/-- `ringbuffer_get_space`: return `rb->size - rb->len`. -/
def ringbuffer_get_space (rb : Ringbuffer) : Int := Int.ofNat (rb.size - rb.len)

/-- The copying core shared verbatim by `ringbuffer_write` and
`ringbuffer_write_all` (lines 123-156 and 180-213 of `ringbuffer.c`): copy
all of `data` starting at the write index, in one step if it fits the
linear run `rb->size - rb->iw`, otherwise in two steps with wraparound,
then advance the write index and the length. -/
def rbCopyIn (rb : Ringbuffer) (data : List Nat) : Ringbuffer :=
  let linlen := rb.size - rb.iw
  if data.length ≤ linlen then
    { rb with
      buffer := writeBytes rb.buffer rb.iw data
      iw := if data.length = linlen then 0 else rb.iw + data.length
      len := rb.len + data.length }
  else
    { rb with
      buffer := writeBytes (writeBytes rb.buffer rb.iw (data.take linlen)) 0 (data.drop linlen)
      iw := data.length - linlen
      len := rb.len + data.length }

/-- `ringbuffer_write`: truncate the request to the available space, then
copy; returns the number of bytes actually written. -/
def ringbuffer_write (rb : Ringbuffer) (data : List Nat) : Int × Ringbuffer :=
  let space := rb.size - rb.len
  let d := if data.length > space then data.take space else data
  (Int.ofNat d.length, rbCopyIn rb d)

/-- `ringbuffer_write_all`: fail with `-1` (and no mutation) unless the
whole request fits the available space, otherwise copy it all. -/
def ringbuffer_write_all (rb : Ringbuffer) (data : List Nat) : Int × Ringbuffer :=
  if data.length > rb.size - rb.len then (-1, rb)
  else (Int.ofNat data.length, rbCopyIn rb data)

/-- `ringbuffer_read`: truncate the request to the live length, copy out
(in one or two steps), advance the read index, decrease the length. -/
def ringbuffer_read (rb : Ringbuffer) (n : Nat) : Int × List Nat × Ringbuffer :=
  let len := if n > rb.len then rb.len else n
  let linlen := rb.size - rb.ir
  if len ≤ linlen then
    (Int.ofNat len, (rb.buffer.drop rb.ir).take len,
      { rb with ir := if len = linlen then 0 else rb.ir + len, len := rb.len - len })
  else
    (Int.ofNat len, (rb.buffer.drop rb.ir).take linlen ++ rb.buffer.take (len - linlen),
      { rb with ir := len - linlen, len := rb.len - len })

/-- `ringbuffer_peek`: like `ringbuffer_read` but with no assignment to any
ring buffer field. -/
def ringbuffer_peek (rb : Ringbuffer) (n : Nat) : Int × List Nat × Ringbuffer :=
  let len := if n > rb.len then rb.len else n
  let linlen := rb.size - rb.ir
  if len ≤ linlen then
    (Int.ofNat len, (rb.buffer.drop rb.ir).take len, rb)
  else
    (Int.ofNat len, (rb.buffer.drop rb.ir).take linlen ++ rb.buffer.take (len - linlen), rb)

/-- `ringbuffer_peek_offset`: peek `n` bytes starting `offset` bytes past
the read index, via the virtual length `vLen` and virtual read index
`vir`; no assignment to any ring buffer field. -/
def ringbuffer_peek_offset (rb : Ringbuffer) (offset n : Nat) : Int × List Nat × Ringbuffer :=
  let vLen := if offset < rb.len then rb.len - offset else 0
  let len := if n > vLen then vLen else n
  let vir0 := rb.ir + offset
  let vir := if vir0 ≥ rb.size then vir0 - rb.size else vir0
  let linlen := rb.size - vir
  if len ≤ linlen then
    (Int.ofNat len, (rb.buffer.drop vir).take len, rb)
  else
    (Int.ofNat len, (rb.buffer.drop vir).take linlen ++ rb.buffer.take (len - linlen), rb)

/-- `ringbuffer_discard`: drop up to `n` bytes from the front of the live
region, advancing the read index without copying. -/
def ringbuffer_discard (rb : Ringbuffer) (n : Nat) : Int × Ringbuffer :=
  let len := if n > rb.len then rb.len else n
  let linlen := rb.size - rb.ir
  let ir' := if len < linlen then rb.ir + len else if len = linlen then 0 else len - linlen
  (Int.ofNat len, { rb with len := rb.len - len, ir := ir' })

/-- The post-increment-and-wrap idiom `if (++i >= rb->size) i = 0;` of
`ringbuffer_find`. -/
def wrapSucc (sz i : Nat) : Nat := if i + 1 ≥ sz then 0 else i + 1

/-- The inner matching loop of `ringbuffer_find` (lines 391-404): compare
the pattern byte by byte against `rb->buffer[i]`, wrapping `i` at the end
of storage; reading the storage out of range yields an unspecified byte,
modelled as `0` via `getD`. -/
def findMatchAt (buf : List Nat) (sz : Nat) : List Nat → Nat → Bool
  | [], _ => true
  | p :: ps, i => if buf.getD i 0 = p then findMatchAt buf sz ps (wrapSucc sz i) else false

/-- The outer search loop of `ringbuffer_find` (lines 388-417): try each
offset up to `rb->len - len`, advancing the (wrapped) search index. -/
def findLoop (buf : List Nat) (sz bufLen : Nat) (pat : List Nat) (offset index : Nat) : Int :=
  if offset ≤ bufLen - pat.length then
    if findMatchAt buf sz pat index then Int.ofNat offset
    else findLoop buf sz bufLen pat (offset + 1) (wrapSucc sz index)
  else -1
termination_by bufLen - pat.length + 1 - offset
decreasing_by omega

/-- `ringbuffer_find`: reject an empty pattern or one longer than the live
length with `-1`, then scan from `rb->ir + offset` (not wrapped before the
loop starts, exactly as in the source). -/
def ringbuffer_find (rb : Ringbuffer) (offset : Nat) (pat : List Nat) : Int :=
  if pat.length = 0 ∨ pat.length > rb.len then -1
  else findLoop rb.buffer rb.size rb.len pat offset (rb.ir + offset)

/-- `ringbuffer_write_block`: check `len + sizeof(size_t)` against the
space, then write the length prefix and the payload via
`ringbuffer_write_all`; `-2` marks the inconsistent partial-write state. -/
def ringbuffer_write_block (rb : Ringbuffer) (block : List Nat) : Int × Ringbuffer :=
  let space := rb.size - rb.len
  if szAdd block.length szLen > space then (-1, rb)
  else
    let r1 := ringbuffer_write_all rb (natToBytesLE szLen block.length)
    if r1.1 < 0 then (-1, r1.2)
    else
      let r2 := ringbuffer_write_all r1.2 block
      if r2.1 < 0 then (-2, r2.2)
      else (Int.ofNat (block.length + szLen), r2.2)

/-- `ringbuffer_read_block`: peek the length prefix, validate it against
the live length and the caller buffer capacity `cap`, then discard the
prefix and read the payload. -/
def ringbuffer_read_block (rb : Ringbuffer) (cap : Nat) : Int × List Nat × Ringbuffer :=
  let pk := ringbuffer_peek rb szLen
  if pk.1 ≠ Int.ofNat szLen then (0, [], rb)
  else
    let bl := bytesToNatLE pk.2.1
    if szAdd bl szLen > rb.len ∨ cap < bl then (0, [], rb)
    else
      let rb1 := (ringbuffer_discard rb szLen).2
      let r := ringbuffer_read rb1 bl
      (r.1, r.2.1, r.2.2)

/-- `ringbuffer_peek_block_length`: peek the length prefix; `0` if fewer
than `sizeof(size_t)` bytes are buffered, `-1` if the declared length does
not fit the live length, otherwise the declared length. -/
def ringbuffer_peek_block_length (rb : Ringbuffer) : Int :=
  let pk := ringbuffer_peek rb szLen
  if pk.1 ≠ Int.ofNat szLen then 0
  else
    let bl := bytesToNatLE pk.2.1
    if szAdd bl szLen > rb.len then -1
    else intOfSz bl

/-- `ringbuffer_peek_block`: read the declared length (through a `size_t`
variable, so a negative return becomes a huge value), clamp it to the
caller capacity, and peek the payload past the prefix. -/
def ringbuffer_peek_block (rb : Ringbuffer) (cap : Nat) : Int × List Nat × Ringbuffer :=
  let bl0 := szOfInt (ringbuffer_peek_block_length rb)
  if bl0 = 0 then (0, [], rb)
  else
    let bl := if cap < bl0 then cap else bl0
    let r := ringbuffer_peek_offset rb szLen bl
    (r.1, r.2.1, r.2.2)

/-- `ringbuffer_discard_block`: read the declared length (through a
`size_t` variable) and discard prefix plus payload unless it is zero. -/
def ringbuffer_discard_block (rb : Ringbuffer) : Int × Ringbuffer :=
  let bl := szOfInt (ringbuffer_peek_block_length rb)
  if bl = 0 then (0, rb)
  else ringbuffer_discard rb (szAdd bl szLen)

/-- The scanning loop of `ringbuffer_count_blocks` (lines 621-634). -/
def countLoop (rb : Ringbuffer) (n len offset : Nat) : Int :=
  if szLen < len then
    let len1 := len - szLen
    let pk := ringbuffer_peek_offset rb offset szLen
    let bl := bytesToNatLE pk.2.1
    if pk.1 = Int.ofNat szLen ∧ bl ≤ len1 then
      countLoop rb (n + 1) (len1 - bl) (offset + (szLen + bl))
    else 0
  else Int.ofNat n
termination_by len
decreasing_by simp only [szLen] at *; omega

/-- `ringbuffer_count_blocks`: walk the live region counting blocks; no
assignment to any ring buffer field. -/
def ringbuffer_count_blocks (rb : Ringbuffer) : Int :=
  countLoop rb 0 rb.len 0

/-- `ringbuffer_write_frame`: write `[hlen+plen][header][payload]` after a
combined space check; `-2` marks the inconsistent partial-write states. -/
def ringbuffer_write_frame (rb : Ringbuffer) (header payload : List Nat) : Int × Ringbuffer :=
  let len := szAdd header.length payload.length
  if szAdd szLen len > rb.size - rb.len then (-1, rb)
  else
    let r1 := ringbuffer_write_all rb (natToBytesLE szLen len)
    if r1.1 < 0 then (-1, r1.2)
    else
      let r2 := ringbuffer_write_all r1.2 header
      if r2.1 < 0 then (-2, r2.2)
      else
        let r3 := ringbuffer_write_all r2.2 payload
        if r3.1 < 0 then (-2, r3.2)
        else (Int.ofNat (len + szLen), r3.2)

/-- `ringbuffer_peek_frame`: peek the length prefix, check that the whole
frame is buffered and that `hlen + max_plen` can hold it, then peek the
header and the payload; returns the payload byte count. -/
def ringbuffer_peek_frame (rb : Ringbuffer) (hlen max_plen : Nat) :
    Int × List Nat × List Nat :=
  let pk := ringbuffer_peek rb szLen
  if pk.1 ≠ Int.ofNat szLen then (-1, [], [])
  else
    let len := bytesToNatLE pk.2.1
    if szAdd len szLen > rb.len then (-1, [], [])
    else if len > szAdd hlen max_plen then (-1, [], [])
    else
      let hd := ringbuffer_peek_offset rb szLen hlen
      let pl := ringbuffer_peek_offset rb (szAdd szLen hlen) (szSub len hlen)
      (pl.1, hd.2.1, pl.2.1)

/-- `ringbuffer_read_frame`: peek the frame, store the `int` result into
the `size_t` variable `plen` (so `-1` becomes `2 ^ 64 - 1`), and discard
`sizeof(size_t) + hlen + plen` bytes whenever `plen >= 0` — which, `plen`
being unsigned, always holds. -/
def ringbuffer_read_frame (rb : Ringbuffer) (hlen max_plen : Nat) :
    Int × List Nat × List Nat × Ringbuffer :=
  let pf := ringbuffer_peek_frame rb hlen max_plen
  let plen : Nat := szOfInt pf.1
  if 0 ≤ plen then
    (intOfSz plen, pf.2.1, pf.2.2, (ringbuffer_discard rb (szAdd (szAdd szLen hlen) plen)).2)
  else
    (intOfSz plen, pf.2.1, pf.2.2, rb)

/-- One call of the public mutating interface, with the argument data the
caller supplies. -/
inductive Op where
  | write (data : List Nat)
  | writeAll (data : List Nat)
  | read (n : Nat)
  | peek (n : Nat)
  | peekOffset (offset n : Nat)
  | discard (n : Nat)
  | find (offset : Nat) (pat : List Nat)
  | clear
  | writeBlock (block : List Nat)
  | readBlock (cap : Nat)
  | peekBlock (cap : Nat)
  | peekBlockLength
  | discardBlock
  | countBlocks
  | writeFrame (header payload : List Nat)
  | peekFrame (hlen max_plen : Nat)
  | readFrame (hlen max_plen : Nat)

/-- The ring buffer state after one call (operations that perform no
assignment to ring buffer fields leave the state unchanged). -/
def applyOp (rb : Ringbuffer) : Op → Ringbuffer
  | .write data => (ringbuffer_write rb data).2
  | .writeAll data => (ringbuffer_write_all rb data).2
  | .read n => (ringbuffer_read rb n).2.2
  | .peek n => (ringbuffer_peek rb n).2.2
  | .peekOffset offset n => (ringbuffer_peek_offset rb offset n).2.2
  | .discard n => (ringbuffer_discard rb n).2
  | .find _ _ => rb
  | .clear => (ringbuffer_clear rb).2
  | .writeBlock block => (ringbuffer_write_block rb block).2
  | .readBlock cap => (ringbuffer_read_block rb cap).2.2
  | .peekBlock cap => (ringbuffer_peek_block rb cap).2.2
  | .peekBlockLength => rb
  | .discardBlock => (ringbuffer_discard_block rb).2
  | .countBlocks => rb
  | .writeFrame header payload => (ringbuffer_write_frame rb header payload).2
  | .peekFrame _ _ => rb
  | .readFrame hlen max_plen => (ringbuffer_read_frame rb hlen max_plen).2.2.2

/-- The states reachable from `ringbuffer_init` over some memory region
(of `size_t`-representable length) by any sequence of calls. -/
inductive Reachable : Ringbuffer → Prop where
  | init (mem : List Nat) (h : mem.length < szMod) : Reachable (ringbuffer_init mem)
  | step (rb : Ringbuffer) (op : Op) : Reachable rb → Reachable (applyOp rb op)

/-- The live byte sequence of the ring buffer: `len` bytes starting at the
read index, wrapping modulo the capacity. -/
def abstract (rb : Ringbuffer) : List Nat :=
  (rb.buffer.rotate rb.ir).take rb.len

/-- The structural invariant of a ring buffer state: the storage list
realises the capacity, the capacity is `size_t`-representable, the length
is capacity-bounded, the read index is in range (it is `0` for a
zero-capacity buffer), and the write index marks the end of the live
region. -/
def WF (rb : Ringbuffer) : Prop :=
  rb.buffer.length = rb.size ∧
  rb.size < szMod ∧
  rb.len ≤ rb.size ∧
  (rb.ir < rb.size ∨ rb.ir = 0) ∧
  rb.iw = (rb.ir + rb.len) % rb.size

instance (rb : Ringbuffer) : Decidable (WF rb) := by
  unfold WF; infer_instance

/-- The pattern `pat` occurs in the live region at offset `o` past the
read position: the `pat.length` live bytes starting `o` bytes past the
read index are exactly `pat`. -/
def occursAt (rb : Ringbuffer) (pat : List Nat) (o : Nat) : Prop :=
  o + pat.length ≤ rb.len ∧ ((abstract rb).drop o).take pat.length = pat

instance (rb : Ringbuffer) (pat : List Nat) (o : Nat) : Decidable (occursAt rb pat o) := by
  unfold occursAt; infer_instance

/-! Basic lemmas about the memory primitives. -/

theorem writeBytes_length (buf : List Nat) (pos : Nat) (data : List Nat) :
    (writeBytes buf pos data).length = buf.length := by
  induction data generalizing buf pos with
  | nil => rfl
  | cons d ds ih => simpa [writeBytes] using ih (buf.set pos d) (pos + 1)

theorem writeBytes_eq_append (buf : List Nat) (pos : Nat) (data : List Nat)
    (h : pos + data.length ≤ buf.length) :
    writeBytes buf pos data = buf.take pos ++ data ++ buf.drop (pos + data.length) := by
  induction data generalizing buf pos with
  | nil =>
    simp [writeBytes, List.take_append_drop]
  | cons d ds ih =>
    have hlt : pos < buf.length := by simp at h; omega
    have hset : buf.set pos d = buf.take pos ++ d :: buf.drop (pos + 1) := by
      rw [List.set_eq_take_append_cons_drop]
      simp [hlt]
    rw [writeBytes, ih (buf.set pos d) (pos + 1)
      (by simp only [List.length_set, List.length_cons] at h ⊢; omega)]
    rw [hset]
    have hlp : (buf.take pos).length = pos := by
      simp [Nat.min_eq_left hlt.le]
    have h1 : (buf.take pos ++ d :: buf.drop (pos + 1)).take (pos + 1)
        = buf.take pos ++ [d] := by
      rw [List.take_append_eq_append_take, hlp]
      have e1 : pos + 1 - pos = 1 := by omega
      rw [e1, List.take_take]
      have e2 : min (pos + 1) pos = pos := by omega
      rw [e2]
      rfl
    have h2 : (buf.take pos ++ d :: buf.drop (pos + 1)).drop (pos + 1 + ds.length)
        = buf.drop (pos + (d :: ds).length) := by
      rw [List.drop_append_eq_append_drop, hlp]
      have e1 : (buf.take pos).drop (pos + 1 + ds.length) = [] := by
        apply List.drop_eq_nil_of_le
        rw [hlp]; omega
      rw [e1]
      have e2 : pos + 1 + ds.length - pos = 1 + ds.length := by omega
      rw [e2]
      simp only [List.nil_append, List.drop_succ_cons, Nat.add_comm 1 ds.length,
        List.drop_drop]
      congr 1
      simp only [List.length_cons]
      omega
    rw [h1, h2]
    simp

theorem length_natToBytesLE (w v : Nat) : (natToBytesLE w v).length = w := by
  induction w generalizing v with
  | zero => rfl
  | succ w ih => simp [natToBytesLE, ih]

theorem mod_mul_decomp (v a b : Nat) : v % (a * b) = v % a + a * (v / a % b) := by
  have h1 : v % (a * b) / a = v / a % b := Nat.mod_mul_right_div_self v a b
  have h2 : v % (a * b) % a = v % a := Nat.mod_mod_of_dvd v ⟨b, rfl⟩
  have h3 := Nat.div_add_mod (v % (a * b)) a
  rw [h1, h2] at h3
  omega

theorem bytesToNatLE_natToBytesLE (w v : Nat) :
    bytesToNatLE (natToBytesLE w v) = v % 256 ^ w := by
  induction w generalizing v with
  | zero => simp [natToBytesLE, bytesToNatLE, Nat.mod_one]
  | succ w ih =>
    rw [natToBytesLE, bytesToNatLE, ih]
    conv_rhs => rw [pow_succ, Nat.mul_comm (256 ^ w) 256]
    rw [mod_mul_decomp v 256 (256 ^ w)]

theorem bytesToNatLE_natToBytesLE_of_lt {v : Nat} (h : v < szMod) :
    bytesToNatLE (natToBytesLE szLen v) = v := by
  rw [bytesToNatLE_natToBytesLE]
  exact Nat.mod_eq_of_lt (by simpa [szMod, szLen] using h)

/-! The rotated view of the storage. `abstract rb` is the sequence of live
bytes; writing appends to it, reading and discarding drop from its front. -/

theorem abstract_length {rb : Ringbuffer} (h : WF rb) : (abstract rb).length = rb.len := by
  obtain ⟨hbuf, -, hlen, -, -⟩ := h
  simp [abstract, List.length_rotate, hbuf, Nat.min_eq_left hlen]

theorem size_zero_state {rb : Ringbuffer} (h : WF rb) (hsz : rb.size = 0) :
    rb.buffer = [] ∧ rb.len = 0 ∧ rb.ir = 0 := by
  obtain ⟨hbuf, -, hlen, hir, -⟩ := h
  refine ⟨List.eq_nil_of_length_eq_zero (by omega), by omega, ?_⟩
  rcases hir with h' | h' <;> omega

theorem copyIn_rotate {rb : Ringbuffer} {data : List Nat} (hWF : WF rb)
    (hfit : data.length ≤ rb.size - rb.len) :
    (rbCopyIn rb data).buffer.rotate rb.ir
      = writeBytes (rb.buffer.rotate rb.ir) rb.len data := by
  obtain ⟨hbuf, hsm, hlen, hir, hiw⟩ := hWF
  rcases Nat.eq_zero_or_pos rb.size with hsz | hsz
  · obtain ⟨hb0, hl0, hi0⟩ := size_zero_state ⟨hbuf, hsm, hlen, hir, hiw⟩ hsz
    have hd0 : data = [] := List.eq_nil_of_length_eq_zero (by omega)
    subst hd0
    simp [rbCopyIn, writeBytes, hb0, hl0, hi0]
  have hirlt : rb.ir < rb.size := by rcases hir with h' | h' <;> omega
  set sz := rb.size with hszdef
  set ir := rb.ir with hirdef
  set len := rb.len with hlendef
  set buf := rb.buffer with hbufdef
  set n := data.length with hndef
  have hrot : buf.rotate ir = buf.drop ir ++ buf.take ir :=
    List.rotate_eq_drop_append_take (by omega)
  have hX : writeBytes (buf.rotate ir) len data
      = (buf.rotate ir).take len ++ data ++ (buf.rotate ir).drop (len + n) :=
    writeBytes_eq_append _ _ _ (by rw [List.length_rotate]; omega)
  rcases Nat.lt_or_ge (ir + len) sz with hA | hB
  · -- the write index has not wrapped: iw = ir + len
    have hiwv : rb.iw = ir + len := by rw [hiw]; exact Nat.mod_eq_of_lt (by omega)
    rcases le_or_lt n (sz - rb.iw) with hlin | htwo
    · -- linear write
      have hbuf' : (rbCopyIn rb data).buffer = writeBytes buf rb.iw data := by
        simp only [rbCopyIn]
        rw [if_pos (by omega)]
      have hw : writeBytes buf rb.iw data
          = buf.take (ir + len) ++ data ++ buf.drop (ir + len + n) := by
        rw [writeBytes_eq_append _ _ _ (by omega), hiwv]
      have hlenw : (writeBytes buf rb.iw data).length = sz := by
        rw [writeBytes_length]; omega
      have hrotw : (writeBytes buf rb.iw data).rotate ir
          = (writeBytes buf rb.iw data).drop ir ++ (writeBytes buf rb.iw data).take ir :=
        List.rotate_eq_drop_append_take (by rw [hlenw]; omega)
      rw [hbuf', hrotw, hw, hX, hrot]
      have e1 : (buf.take (ir + len) ++ data ++ buf.drop (ir + len + n)).drop ir
          = (buf.drop ir).take len ++ data ++ buf.drop (ir + len + n) := by
        rw [List.append_assoc, List.drop_append_of_le_length
          (by rw [List.length_take]; omega)]
        rw [List.drop_take]
        have i1 : ir + len - ir = len := by omega
        rw [i1, List.append_assoc]
      have e2 : (buf.take (ir + len) ++ data ++ buf.drop (ir + len + n)).take ir
          = buf.take ir := by
        rw [List.append_assoc, List.take_append_of_le_length
          (by rw [List.length_take]; omega)]
        rw [List.take_take]
        congr 1
        omega
      have e3 : (buf.drop ir ++ buf.take ir).take len = (buf.drop ir).take len :=
        List.take_append_of_le_length (by rw [List.length_drop]; omega)
      have e4 : (buf.drop ir ++ buf.take ir).drop (len + n)
          = buf.drop (ir + len + n) ++ buf.take ir := by
        rw [List.drop_append_of_le_length (by rw [List.length_drop]; omega),
          List.drop_drop]
        congr 2
        omega
      rw [e1, e2, e3, e4]
      simp [List.append_assoc]
    · -- wrapped write in two steps
      have hnval : n ≤ sz - len := by omega
      have hlin2 : sz - rb.iw < n := htwo
      have hbuf' : (rbCopyIn rb data).buffer
          = writeBytes (writeBytes buf rb.iw (data.take (sz - rb.iw))) 0
              (data.drop (sz - rb.iw)) := by
        simp only [rbCopyIn]
        rw [if_neg (by omega)]
      set linlen := sz - rb.iw with hlinlen
      set m := n - linlen with hm
      have hmle : m ≤ ir := by omega
      have htk : (data.take linlen).length = linlen := by
        rw [List.length_take]; omega
      have hw1 : writeBytes buf rb.iw (data.take linlen)
          = buf.take rb.iw ++ data.take linlen := by
        rw [writeBytes_eq_append _ _ _ (by omega)]
        have : buf.drop (rb.iw + (data.take linlen).length) = [] := by
          apply List.drop_eq_nil_of_le
          rw [htk]; omega
        rw [this]
        simp
      have hlen1 : (buf.take rb.iw ++ data.take linlen).length = sz := by
        rw [List.length_append, List.length_take, htk]; omega
      have hw2 : writeBytes (buf.take rb.iw ++ data.take linlen) 0 (data.drop linlen)
          = data.drop linlen ++ ((buf.take rb.iw ++ data.take linlen).drop m) := by
        rw [writeBytes_eq_append _ _ _ (by rw [hlen1, List.length_drop]; omega)]
        simp only [List.take_zero, List.nil_append, Nat.zero_add, List.length_drop]
      have hdm : (buf.take rb.iw ++ data.take linlen).drop m
          = (buf.drop m).take (rb.iw - m) ++ data.take linlen := by
        rw [List.drop_append_of_le_length (by rw [List.length_take]; omega),
          List.drop_take]
      have hbuf'' : (rbCopyIn rb data).buffer
          = data.drop linlen ++ ((buf.drop m).take (rb.iw - m) ++ data.take linlen) := by
        rw [hbuf', hw1, hw2, hdm]
      have hlenb : (rbCopyIn rb data).buffer.length = sz := by
        rw [hbuf'']
        simp only [List.length_append, List.length_drop, List.length_take]
        omega
      have hrotw : (rbCopyIn rb data).buffer.rotate ir
          = (rbCopyIn rb data).buffer.drop ir ++ (rbCopyIn rb data).buffer.take ir :=
        List.rotate_eq_drop_append_take (by rw [hlenb]; omega)
      rw [hrotw, hbuf'', hX, hrot]
      have e1 : (data.drop linlen ++ ((buf.drop m).take (rb.iw - m) ++ data.take linlen)).drop ir
          = (buf.drop ir).take len ++ data.take linlen := by
        rw [List.drop_append_eq_append_drop]
        have : (data.drop linlen).drop ir = [] := by
          apply List.drop_eq_nil_of_le
          rw [List.length_drop]; omega
        rw [this, List.nil_append, List.length_drop]
        rw [List.drop_append_of_le_length (by rw [List.length_take, List.length_drop]; omega)]
        rw [List.drop_take, List.drop_drop]
        have i1 : m + (ir - (data.length - linlen)) = ir := by omega
        have i2 : rb.iw - m - (ir - (data.length - linlen)) = len := by omega
        rw [i1, i2]
      have e2 : (data.drop linlen ++ ((buf.drop m).take (rb.iw - m) ++ data.take linlen)).take ir
          = data.drop linlen ++ (buf.drop m).take (ir - m) := by
        rw [List.take_append_eq_append_take]
        have : (data.drop linlen).take ir = data.drop linlen := by
          apply List.take_of_length_le
          rw [List.length_drop]; omega
        rw [this, List.length_drop]
        congr 1
        rw [List.take_append_of_le_length (by rw [List.length_take, List.length_drop]; omega),
          List.take_take]
        congr 1
        omega
      have e3 : (buf.drop ir ++ buf.take ir).take len = (buf.drop ir).take len :=
        List.take_append_of_le_length (by rw [List.length_drop]; omega)
      have e4 : (buf.drop ir ++ buf.take ir).drop (len + n)
          = (buf.drop m).take (ir - m) := by
        rw [List.drop_append_eq_append_drop]
        have : (buf.drop ir).drop (len + n) = [] := by
          apply List.drop_eq_nil_of_le
          rw [List.length_drop]; omega
        rw [this, List.nil_append, List.length_drop]
        have i1 : len + n - (buf.length - ir) = m := by omega
        rw [i1, List.drop_take]
      rw [e1, e2, e3, e4]
      have : data.take linlen ++ data.drop linlen = data := List.take_append_drop _ _
      rw [List.append_assoc, List.append_assoc, ← List.append_assoc (data.take linlen), this]
  · -- the write index has wrapped: iw = ir + len - sz ≤ ir
    have hiwv : rb.iw = ir + len - sz := by
      rw [hiw, Nat.mod_eq_sub_mod (by omega), Nat.mod_eq_of_lt (by omega)]
    have hiwle : rb.iw ≤ ir := by omega
    have hlin : n ≤ sz - rb.iw := by omega
    have hiwn : rb.iw + n ≤ ir := by omega
    have hbuf' : (rbCopyIn rb data).buffer = writeBytes buf rb.iw data := by
      simp only [rbCopyIn]
      rw [if_pos (by omega)]
    have hw : writeBytes buf rb.iw data
        = buf.take rb.iw ++ data ++ buf.drop (rb.iw + n) := by
      rw [writeBytes_eq_append _ _ _ (by omega)]
    have hlenw : (writeBytes buf rb.iw data).length = sz := by
      rw [writeBytes_length]; omega
    have hrotw : (writeBytes buf rb.iw data).rotate ir
        = (writeBytes buf rb.iw data).drop ir ++ (writeBytes buf rb.iw data).take ir :=
      List.rotate_eq_drop_append_take (by rw [hlenw]; omega)
    rw [hbuf', hrotw, hw, hX, hrot]
    have hltw : (buf.take rb.iw).length = rb.iw := by
      simp [hbuf]; omega
    have e1 : (buf.take rb.iw ++ data ++ buf.drop (rb.iw + n)).drop ir = buf.drop ir := by
      rw [List.append_assoc, List.drop_append_eq_append_drop, hltw]
      have h0 : (buf.take rb.iw).drop ir = [] := by
        apply List.drop_eq_nil_of_le
        rw [hltw]; omega
      rw [h0, List.nil_append, List.drop_append_eq_append_drop]
      have h1 : data.drop (ir - rb.iw) = [] := by
        apply List.drop_eq_nil_of_le
        omega
      rw [h1, List.nil_append, List.drop_drop]
      congr 1
      omega
    have e2 : (buf.take rb.iw ++ data ++ buf.drop (rb.iw + n)).take ir
        = buf.take rb.iw ++ data ++ (buf.drop (rb.iw + n)).take (ir - rb.iw - n) := by
      rw [List.append_assoc, List.take_append_eq_append_take, hltw]
      have h0 : (buf.take rb.iw).take ir = buf.take rb.iw := by
        apply List.take_of_length_le
        rw [hltw]; omega
      rw [h0, List.take_append_eq_append_take]
      have h1 : data.take (ir - rb.iw) = data := by
        apply List.take_of_length_le
        omega
      rw [h1, List.append_assoc]
    have e3 : (buf.drop ir ++ buf.take ir).take len
        = buf.drop ir ++ buf.take rb.iw := by
      rw [List.take_append_eq_append_take]
      have : (buf.drop ir).take len = buf.drop ir := by
        apply List.take_of_length_le
        rw [List.length_drop]; omega
      rw [this, List.length_drop, List.take_take]
      have i1 : min (len - (buf.length - ir)) ir = rb.iw := by omega
      rw [i1]
    have e4 : (buf.drop ir ++ buf.take ir).drop (len + n)
        = (buf.drop (rb.iw + n)).take (ir - rb.iw - n) := by
      rw [List.drop_append_eq_append_drop]
      have : (buf.drop ir).drop (len + n) = [] := by
        apply List.drop_eq_nil_of_le
        rw [List.length_drop]; omega
      rw [this, List.nil_append, List.length_drop]
      have i1 : len + n - (buf.length - ir) = rb.iw + n := by omega
      rw [i1, List.drop_take]
      have i2 : ir - (rb.iw + n) = ir - rb.iw - n := by omega
      rw [i2]
    rw [e1, e2, e3, e4]
    simp [List.append_assoc]

theorem copyIn_size (rb : Ringbuffer) (data : List Nat) : (rbCopyIn rb data).size = rb.size := by
  simp only [rbCopyIn]
  split <;> rfl

theorem copyIn_ir (rb : Ringbuffer) (data : List Nat) : (rbCopyIn rb data).ir = rb.ir := by
  simp only [rbCopyIn]
  split <;> rfl

theorem copyIn_len (rb : Ringbuffer) (data : List Nat) :
    (rbCopyIn rb data).len = rb.len + data.length := by
  simp only [rbCopyIn]
  split <;> rfl

theorem copyIn_buffer_length (rb : Ringbuffer) (data : List Nat) :
    (rbCopyIn rb data).buffer.length = rb.buffer.length := by
  simp only [rbCopyIn]
  split <;> simp [writeBytes_length]

theorem mod_val (x sz : Nat) (hlt : x < 2 * sz) :
    x % sz = if x < sz then x else x - sz := by
  split
  · exact Nat.mod_eq_of_lt (by omega)
  · rw [Nat.mod_eq_sub_mod (by omega)]
    exact Nat.mod_eq_of_lt (by omega)

theorem copyIn_iw {rb : Ringbuffer} {data : List Nat} (hWF : WF rb)
    (hfit : data.length ≤ rb.size - rb.len) :
    (rbCopyIn rb data).iw = (rb.ir + (rb.len + data.length)) % rb.size := by
  obtain ⟨hbuf, hsm, hlen, hir, hiw⟩ := hWF
  rcases Nat.eq_zero_or_pos rb.size with hsz | hsz
  · obtain ⟨hb0, hl0, hi0⟩ := size_zero_state ⟨hbuf, hsm, hlen, hir, hiw⟩ hsz
    have hd0 : data.length = 0 := by omega
    have hiw0 : rb.iw = 0 := by
      rw [hiw, hi0, hl0, hsz]
    simp only [rbCopyIn]
    rw [if_pos (by omega)]
    simp [hi0, hl0, hsz, hiw0, hd0]
  · have hirlt : rb.ir < rb.size := by rcases hir with h | h <;> omega
    have hiwlt : rb.iw < rb.size := by rw [hiw]; exact Nat.mod_lt _ hsz
    have hiwv : rb.iw = if rb.ir + rb.len < rb.size then rb.ir + rb.len
        else rb.ir + rb.len - rb.size := by
      rw [hiw]; exact mod_val _ _ (by omega)
    rw [mod_val _ _ (by split at hiwv <;> omega)]
    simp only [rbCopyIn]
    split
    · show (if data.length = rb.size - rb.iw then 0 else rb.iw + data.length) = _
      split at hiwv <;> split_ifs <;> omega
    · show data.length - (rb.size - rb.iw) = _
      split at hiwv <;> split_ifs <;> omega

theorem WF_copyIn {rb : Ringbuffer} {data : List Nat} (hWF : WF rb)
    (hfit : data.length ≤ rb.size - rb.len) : WF (rbCopyIn rb data) := by
  obtain ⟨hbuf, hsm, hlen, hir, hiw⟩ := hWF
  refine ⟨?_, ?_, ?_, ?_, ?_⟩
  · rw [copyIn_buffer_length, copyIn_size, hbuf]
  · rw [copyIn_size]; exact hsm
  · rw [copyIn_len, copyIn_size]; omega
  · rw [copyIn_ir, copyIn_size]; exact hir
  · rw [copyIn_iw ⟨hbuf, hsm, hlen, hir, hiw⟩ hfit, copyIn_ir, copyIn_len, copyIn_size]

theorem abstract_copyIn {rb : Ringbuffer} {data : List Nat} (hWF : WF rb)
    (hfit : data.length ≤ rb.size - rb.len) :
    abstract (rbCopyIn rb data) = abstract rb ++ data := by
  obtain ⟨hbuf, hsm, hlen, hir, hiw⟩ := hWF
  have hX : (rb.buffer.rotate rb.ir).length = rb.size := by
    rw [List.length_rotate, hbuf]
  rw [abstract, copyIn_ir, copyIn_len, copyIn_rotate ⟨hbuf, hsm, hlen, hir, hiw⟩ hfit,
    writeBytes_eq_append _ _ _ (by omega)]
  apply List.take_left'
  rw [List.length_append, List.length_take]
  omega

theorem if_gt_min (n m : Nat) : (if n > m then m else n) = min n m := by
  split <;> omega

theorem peekCore {buf : List Nat} {sz v k : Nat} (hbuf : buf.length = sz)
    (hv : v ≤ sz) (hk : k ≤ sz) :
    (if k ≤ sz - v then (buf.drop v).take k
     else (buf.drop v).take (sz - v) ++ buf.take (k - (sz - v)))
      = (buf.rotate v).take k := by
  rw [List.rotate_eq_drop_append_take (show v ≤ buf.length by omega)]
  split
  · rw [List.take_append_of_le_length (by rw [List.length_drop]; omega)]
  · rw [List.take_append_eq_append_take]
    have h1 : (buf.drop v).take k = buf.drop v :=
      List.take_of_length_le (by rw [List.length_drop]; omega)
    have h2 : (buf.drop v).take (sz - v) = buf.drop v :=
      List.take_of_length_le (by rw [List.length_drop]; omega)
    rw [h1, h2, List.length_drop, hbuf, List.take_take]
    have h3 : min (k - (sz - v)) v = k - (sz - v) := by omega
    rw [h3]

theorem rotate_advance {buf : List Nat} {sz ir off k : Nat} (hbuf : buf.length = sz)
    (hoff : off ≤ sz) (hk : k ≤ sz - off) :
    (buf.rotate ((ir + off) % sz)).take k = ((buf.rotate ir).drop off).take k := by
  rcases Nat.eq_zero_or_pos sz with hsz | hsz
  · have hnil : buf = [] := List.eq_nil_of_length_eq_zero (by omega)
    subst hnil
    simp
  · have h1 : (ir + off) % sz = (ir + off) % buf.length := by rw [hbuf]
    rw [h1, List.rotate_mod, ← List.rotate_rotate,
      List.rotate_eq_drop_append_take
        (show off ≤ (buf.rotate ir).length by rw [List.length_rotate]; omega),
      List.take_append_of_le_length (by rw [List.length_drop, List.length_rotate]; omega)]

theorem abstract_advance {rb : Ringbuffer} (hWF : WF rb) (k : Nat) (hk : k ≤ rb.len) :
    abstract { rb with ir := (rb.ir + k) % rb.size, len := rb.len - k }
      = (abstract rb).drop k := by
  obtain ⟨hbuf, hsm, hlen, hir, hiw⟩ := hWF
  show (rb.buffer.rotate ((rb.ir + k) % rb.size)).take (rb.len - k) = _
  rw [rotate_advance hbuf (by omega) (by omega), abstract, List.drop_take]

theorem WF_advance {rb : Ringbuffer} (hWF : WF rb) (k : Nat) (hk : k ≤ rb.len) :
    WF { rb with ir := (rb.ir + k) % rb.size, len := rb.len - k } := by
  obtain ⟨hbuf, hsm, hlen, hir, hiw⟩ := hWF
  refine ⟨hbuf, hsm, (show rb.len - k ≤ rb.size by omega), ?_, ?_⟩
  · rcases Nat.eq_zero_or_pos rb.size with h | h
    · right
      show (rb.ir + k) % rb.size = 0
      have hir0 : rb.ir = 0 := by rcases hir with h' | h' <;> omega
      have hk0 : k = 0 := by omega
      rw [hir0, hk0, h]
    · left
      exact Nat.mod_lt _ h
  · show rb.iw = ((rb.ir + k) % rb.size + (rb.len - k)) % rb.size
    rw [hiw, Nat.mod_add_mod]
    congr 1
    omega

theorem peek_eq {rb : Ringbuffer} (n : Nat) (hWF : WF rb) :
    ringbuffer_peek rb n
      = (Int.ofNat (min n rb.len), (abstract rb).take (min n rb.len), rb) := by
  obtain ⟨hbuf, hsm, hlen, hir, hiw⟩ := hWF
  have hvle : rb.ir ≤ rb.size := by rcases hir with h | h <;> omega
  have hcore := peekCore hbuf hvle (show min n rb.len ≤ rb.size by omega)
  have habs : (abstract rb).take (min n rb.len)
      = (rb.buffer.rotate rb.ir).take (min n rb.len) := by
    rw [abstract, List.take_take]
    congr 1
    omega
  rw [habs, ← hcore]
  simp only [ringbuffer_peek, if_gt_min]
  by_cases hc : min n rb.len ≤ rb.size - rb.ir <;> simp [hc]

theorem read_eq {rb : Ringbuffer} (n : Nat) (hWF : WF rb) :
    ringbuffer_read rb n
      = (Int.ofNat (min n rb.len), (abstract rb).take (min n rb.len),
        { rb with ir := (rb.ir + min n rb.len) % rb.size, len := rb.len - min n rb.len }) := by
  obtain ⟨hbuf, hsm, hlen, hir, hiw⟩ := hWF
  have hvle : rb.ir ≤ rb.size := by rcases hir with h | h <;> omega
  have hcore := peekCore hbuf hvle (show min n rb.len ≤ rb.size by omega)
  have habs : (abstract rb).take (min n rb.len)
      = (rb.buffer.rotate rb.ir).take (min n rb.len) := by
    rw [abstract, List.take_take]
    congr 1
    omega
  rw [habs, ← hcore]
  simp only [ringbuffer_read, if_gt_min]
  rcases Nat.eq_zero_or_pos rb.size with hsz | hsz
  · have hir0 : rb.ir = 0 := by rcases hir with h' | h' <;> omega
    have hl0 : rb.len = 0 := by omega
    simp [hsz, hir0, hl0]
  by_cases hc : min n rb.len ≤ rb.size - rb.ir
  · simp only [if_pos hc]
    have hirv : (if min n rb.len = rb.size - rb.ir then 0 else rb.ir + min n rb.len)
        = (rb.ir + min n rb.len) % rb.size := by
      rw [mod_val _ _ (by omega)]
      split_ifs <;> omega
    rw [hirv]
  · simp only [if_neg hc]
    have hirv : min n rb.len - (rb.size - rb.ir) = (rb.ir + min n rb.len) % rb.size := by
      rw [mod_val _ _ (by omega)]
      split_ifs <;> omega
    rw [hirv]

theorem discard_eq {rb : Ringbuffer} (n : Nat) (hWF : WF rb) :
    ringbuffer_discard rb n
      = (Int.ofNat (min n rb.len),
        { rb with ir := (rb.ir + min n rb.len) % rb.size, len := rb.len - min n rb.len }) := by
  obtain ⟨hbuf, hsm, hlen, hir, hiw⟩ := hWF
  simp only [ringbuffer_discard, if_gt_min]
  rcases Nat.eq_zero_or_pos rb.size with hsz | hsz
  · have hir0 : rb.ir = 0 := by rcases hir with h' | h' <;> omega
    have hl0 : rb.len = 0 := by omega
    simp [hsz, hir0, hl0]
  have hirlt : rb.ir < rb.size := by rcases hir with h' | h' <;> omega
  have hirv : (if min n rb.len < rb.size - rb.ir then rb.ir + min n rb.len
      else if min n rb.len = rb.size - rb.ir then 0 else min n rb.len - (rb.size - rb.ir))
      = (rb.ir + min n rb.len) % rb.size := by
    rw [mod_val _ _ (by omega)]
    split_ifs <;> omega
  rw [hirv]

theorem peekOffset_eq {rb : Ringbuffer} (off n : Nat) (hWF : WF rb) (hoff : off ≤ rb.size) :
    ringbuffer_peek_offset rb off n
      = (Int.ofNat (min n (rb.len - off)),
         ((abstract rb).drop off).take (min n (rb.len - off)), rb) := by
  obtain ⟨hbuf, hsm, hlen, hir, hiw⟩ := hWF
  have hvlen : (if off < rb.len then rb.len - off else 0) = rb.len - off := by
    split <;> omega
  have hirle : rb.ir ≤ rb.size := by rcases hir with h' | h' <;> omega
  have hvirv : (if rb.ir + off ≥ rb.size then rb.ir + off - rb.size else rb.ir + off)
      = (rb.ir + off) % rb.size := by
    rcases Nat.eq_zero_or_pos rb.size with hsz | hsz
    · have hir0 : rb.ir = 0 := by rcases hir with h' | h' <;> omega
      have ho0 : off = 0 := by omega
      simp [hsz, hir0, ho0]
    · rw [mod_val _ _ (by omega)]
      split_ifs <;> omega
  have hvle : (rb.ir + off) % rb.size ≤ rb.size := by
    rcases Nat.eq_zero_or_pos rb.size with hsz | hsz
    · have hir0 : rb.ir = 0 := by rcases hir with h' | h' <;> omega
      have ho0 : off = 0 := by omega
      simp [hsz, hir0, ho0]
    · exact le_of_lt (Nat.mod_lt _ hsz)
  have hcore := peekCore hbuf hvle (show min n (rb.len - off) ≤ rb.size by omega)
  have hadv : (rb.buffer.rotate ((rb.ir + off) % rb.size)).take (min n (rb.len - off))
      = ((rb.buffer.rotate rb.ir).drop off).take (min n (rb.len - off)) :=
    rotate_advance hbuf hoff (by omega)
  have habs : ((abstract rb).drop off).take (min n (rb.len - off))
      = ((rb.buffer.rotate rb.ir).drop off).take (min n (rb.len - off)) := by
    rw [abstract, List.drop_take, List.take_take]
    congr 1
    omega
  rw [habs, ← hadv, ← hcore]
  simp only [ringbuffer_peek_offset, hvlen, if_gt_min, hvirv]
  by_cases hc : min n (rb.len - off) ≤ rb.size - (rb.ir + off) % rb.size <;> simp [hc]

theorem write_eq (rb : Ringbuffer) (data : List Nat) :
    ringbuffer_write rb data
      = (Int.ofNat (min data.length (rb.size - rb.len)),
         rbCopyIn rb (data.take (min data.length (rb.size - rb.len)))) := by
  simp only [ringbuffer_write]
  by_cases h : data.length > rb.size - rb.len
  · rw [if_pos h]
    have h1 : (data.take (rb.size - rb.len)).length = rb.size - rb.len := by
      rw [List.length_take]; omega
    have h2 : min data.length (rb.size - rb.len) = rb.size - rb.len := by omega
    rw [h1, h2]
  · rw [if_neg h]
    have h2 : min data.length (rb.size - rb.len) = data.length := by omega
    rw [h2, List.take_length]

theorem WF_write {rb : Ringbuffer} (data : List Nat) (hWF : WF rb) :
    WF (ringbuffer_write rb data).2 := by
  rw [write_eq]
  exact WF_copyIn hWF (by rw [List.length_take]; omega)

theorem abstract_write {rb : Ringbuffer} (data : List Nat) (hWF : WF rb) :
    abstract (ringbuffer_write rb data).2
      = abstract rb ++ data.take (min data.length (rb.size - rb.len)) := by
  rw [write_eq]
  exact abstract_copyIn hWF (by rw [List.length_take]; omega)

theorem WF_write_all {rb : Ringbuffer} (data : List Nat) (hWF : WF rb) :
    WF (ringbuffer_write_all rb data).2 := by
  simp only [ringbuffer_write_all]
  split
  · exact hWF
  · exact WF_copyIn hWF (by omega)

theorem write_all_fit {rb : Ringbuffer} {data : List Nat}
    (hfit : data.length ≤ rb.size - rb.len) :
    ringbuffer_write_all rb data = (Int.ofNat data.length, rbCopyIn rb data) := by
  simp only [ringbuffer_write_all]
  rw [if_neg (by omega)]

theorem WF_read {rb : Ringbuffer} (n : Nat) (hWF : WF rb) :
    WF (ringbuffer_read rb n).2.2 := by
  rw [read_eq n hWF]
  exact WF_advance hWF _ (by omega)

theorem WF_discard {rb : Ringbuffer} (n : Nat) (hWF : WF rb) :
    WF (ringbuffer_discard rb n).2 := by
  rw [discard_eq n hWF]
  exact WF_advance hWF _ (by omega)

theorem peek_state (rb : Ringbuffer) (n : Nat) : (ringbuffer_peek rb n).2.2 = rb := by
  simp only [ringbuffer_peek]
  split <;> split <;> rfl

theorem peekOffset_state (rb : Ringbuffer) (off n : Nat) :
    (ringbuffer_peek_offset rb off n).2.2 = rb := by
  simp only [ringbuffer_peek_offset]
  split <;> split <;> split <;> split <;> rfl

theorem WF_clear {rb : Ringbuffer} (hWF : WF rb) : WF (ringbuffer_clear rb).2 := by
  obtain ⟨hbuf, hsm, hlen, hir, hiw⟩ := hWF
  simp only [ringbuffer_clear]
  exact ⟨hbuf, hsm, Nat.zero_le _, Or.inr rfl, by simp⟩

theorem WF_write_block {rb : Ringbuffer} (block : List Nat) (hWF : WF rb) :
    WF (ringbuffer_write_block rb block).2 := by
  simp only [ringbuffer_write_block]
  split
  · exact hWF
  · split
    · exact WF_write_all _ hWF
    · split
      · exact WF_write_all _ (WF_write_all _ hWF)
      · exact WF_write_all _ (WF_write_all _ hWF)

theorem WF_read_block {rb : Ringbuffer} (cap : Nat) (hWF : WF rb) :
    WF (ringbuffer_read_block rb cap).2.2 := by
  simp only [ringbuffer_read_block]
  split
  · exact hWF
  · split
    · exact hWF
    · exact WF_read _ (WF_discard _ hWF)

theorem peek_block_state (rb : Ringbuffer) (cap : Nat) :
    (ringbuffer_peek_block rb cap).2.2 = rb := by
  simp only [ringbuffer_peek_block]
  split
  · rfl
  · rw [peekOffset_state]

theorem WF_discard_block {rb : Ringbuffer} (hWF : WF rb) :
    WF (ringbuffer_discard_block rb).2 := by
  simp only [ringbuffer_discard_block]
  split
  · exact hWF
  · exact WF_discard _ hWF

theorem WF_write_frame {rb : Ringbuffer} (header payload : List Nat) (hWF : WF rb) :
    WF (ringbuffer_write_frame rb header payload).2 := by
  simp only [ringbuffer_write_frame]
  split
  · exact hWF
  · split
    · exact WF_write_all _ hWF
    · split
      · exact WF_write_all _ (WF_write_all _ hWF)
      · split
        · exact WF_write_all _ (WF_write_all _ (WF_write_all _ hWF))
        · exact WF_write_all _ (WF_write_all _ (WF_write_all _ hWF))

theorem WF_read_frame {rb : Ringbuffer} (hlen max_plen : Nat) (hWF : WF rb) :
    WF (ringbuffer_read_frame rb hlen max_plen).2.2.2 := by
  simp only [ringbuffer_read_frame]
  split
  · exact WF_discard _ hWF
  · exact hWF

theorem WF_applyOp {rb : Ringbuffer} (op : Op) (hWF : WF rb) : WF (applyOp rb op) := by
  cases op with
  | write data => exact WF_write data hWF
  | writeAll data => exact WF_write_all data hWF
  | read n => exact WF_read n hWF
  | peek n => rw [applyOp, peek_state]; exact hWF
  | peekOffset off n => rw [applyOp, peekOffset_state]; exact hWF
  | discard n => exact WF_discard n hWF
  | find off pat => exact hWF
  | clear => exact WF_clear hWF
  | writeBlock block => exact WF_write_block block hWF
  | readBlock cap => exact WF_read_block cap hWF
  | peekBlock cap => rw [applyOp, peek_block_state]; exact hWF
  | peekBlockLength => exact hWF
  | discardBlock => exact WF_discard_block hWF
  | countBlocks => exact hWF
  | writeFrame header payload => exact WF_write_frame header payload hWF
  | peekFrame hlen max_plen => exact hWF
  | readFrame hlen max_plen => exact WF_read_frame hlen max_plen hWF

theorem WF_init {mem : List Nat} (h : mem.length < szMod) : WF (ringbuffer_init mem) :=
  ⟨rfl, h, Nat.zero_le _, Or.inr rfl, by simp [ringbuffer_init, ringbuffer_clear]⟩

theorem WF_reachable {rb : Ringbuffer} (h : Reachable rb) : WF rb := by
  induction h with
  | init mem hm => exact WF_init hm
  | step rb op hr ih => exact WF_applyOp op ih

theorem szAdd_eq {a b : Nat} (h : a + b < szMod) : szAdd a b = a + b :=
  Nat.mod_eq_of_lt h

theorem szSub_eq {a b : Nat} (hba : b ≤ a) (ha : a < szMod) : szSub a b = a - b := by
  rw [szSub, Nat.mod_eq_of_lt (show b < szMod by omega)]
  have h1 : a + szMod - b = (a - b) + szMod := by omega
  rw [h1, Nat.add_mod_right]
  exact Nat.mod_eq_of_lt (by omega)

theorem szOfInt_ofNat {n : Nat} (h : n < szMod) : szOfInt (Int.ofNat n) = n := by
  rw [szOfInt, Int.ofNat_eq_natCast, Int.emod_eq_of_lt (by omega) (by omega)]
  simp

theorem abstract_empty {rb : Ringbuffer} (h : rb.len = 0) : abstract rb = [] := by
  rw [abstract, h, List.take_zero]

/-- C2, the capacity and index invariant, fails as stated for a ring buffer
initialised over a zero-length memory region: that state is reachable and
its indices are `0`, which does not lie in the empty interval
`[0, capacity)`. -/
theorem invariant_zero_capacity_counterexample :
    Reachable (ringbuffer_init []) ∧
    (ringbuffer_init []).size = 0 ∧
    ¬ ((ringbuffer_init []).ir < (ringbuffer_init []).size ∧
       (ringbuffer_init []).iw < (ringbuffer_init []).size) :=
  ⟨Reachable.init [] (by decide), rfl, by decide⟩

/-- C2 (amended): for every sequence of operations starting from init,
after every call the ring buffer satisfies `0 ≤ length ≤ capacity` and
`write_index = (read_index + length) % capacity`; whenever the capacity is
positive both indices lie in `[0, capacity)`, and for a zero-capacity
buffer both indices are `0`. -/
theorem ringbuffer_invariant {rb : Ringbuffer} (h : Reachable rb) :
    rb.len ≤ rb.size ∧
    rb.iw = (rb.ir + rb.len) % rb.size ∧
    (0 < rb.size → rb.ir < rb.size ∧ rb.iw < rb.size) ∧
    (rb.size = 0 → rb.ir = 0 ∧ rb.iw = 0) := by
  obtain ⟨hbuf, hsm, hlen, hir, hiw⟩ := WF_reachable h
  refine ⟨hlen, hiw, ?_, ?_⟩
  · intro hpos
    exact ⟨by rcases hir with h' | h' <;> omega, hiw ▸ Nat.mod_lt _ hpos⟩
  · intro hz
    have hir0 : rb.ir = 0 := by rcases hir with h' | h' <;> omega
    refine ⟨hir0, ?_⟩
    rw [hiw, hir0, hz]
    omega

theorem ringbuffer_invariant_witness :
    Reachable (applyOp (ringbuffer_init [0, 0, 0, 0]) (Op.write [1, 2])) ∧
    (applyOp (ringbuffer_init [0, 0, 0, 0]) (Op.write [1, 2])).iw
      = ((applyOp (ringbuffer_init [0, 0, 0, 0]) (Op.write [1, 2])).ir
          + (applyOp (ringbuffer_init [0, 0, 0, 0]) (Op.write [1, 2])).len)
        % (applyOp (ringbuffer_init [0, 0, 0, 0]) (Op.write [1, 2])).size := by
  have hre : Reachable (applyOp (ringbuffer_init [0, 0, 0, 0]) (Op.write [1, 2])) :=
    Reachable.step _ _ (Reachable.init _ (by decide))
  exact ⟨hre, (ringbuffer_invariant hre).2.1⟩

/-- C3: when the requested write length exceeds the free space
`capacity - length`, `ringbuffer_write` appends exactly the free-space
many bytes (the first `space` bytes of the request), returns that
truncated count, and leaves the buffer full; in particular from an empty
ring buffer an oversized request stores the first `capacity` bytes and
reports `capacity`. -/
theorem write_truncates_to_space {rb : Ringbuffer} (data : List Nat) (hWF : WF rb)
    (hover : data.length > rb.size - rb.len) :
    (ringbuffer_write rb data).1 = Int.ofNat (rb.size - rb.len) ∧
    (ringbuffer_write rb data).2.len = rb.size ∧
    abstract (ringbuffer_write rb data).2
      = abstract rb ++ data.take (rb.size - rb.len) ∧
    (rb.len = 0 → (ringbuffer_write rb data).1 = Int.ofNat rb.size ∧
      abstract (ringbuffer_write rb data).2 = data.take rb.size) := by
  obtain ⟨hbuf, hsm, hlen, hir, hiw⟩ := hWF
  have hmin : min data.length (rb.size - rb.len) = rb.size - rb.len := by omega
  refine ⟨?_, ?_, ?_, ?_⟩
  · rw [write_eq, hmin]
  · rw [write_eq, copyIn_len, List.length_take]
    omega
  · rw [abstract_write data ⟨hbuf, hsm, hlen, hir, hiw⟩, hmin]
  · intro h0
    constructor
    · rw [write_eq, hmin, h0, Nat.sub_zero]
    · rw [abstract_write data ⟨hbuf, hsm, hlen, hir, hiw⟩, hmin, h0, Nat.sub_zero,
        abstract_empty h0, List.nil_append]

theorem write_truncates_to_space_witness :
    WF (Ringbuffer.mk 4 [0, 0, 0, 0] 0 0 0) ∧
    ([1, 2, 3, 4, 5, 6] : List Nat).length > 4 - 0 ∧
    (ringbuffer_write (Ringbuffer.mk 4 [0, 0, 0, 0] 0 0 0) [1, 2, 3, 4, 5, 6]).1 = Int.ofNat 4 ∧
    abstract (ringbuffer_write (Ringbuffer.mk 4 [0, 0, 0, 0] 0 0 0) [1, 2, 3, 4, 5, 6]).2
      = [1, 2, 3, 4] := by
  have h := @write_truncates_to_space (Ringbuffer.mk 4 [0, 0, 0, 0] 0 0 0)
    [1, 2, 3, 4, 5, 6] (by decide) (by decide)
  exact ⟨by decide, by decide, h.1, by decide⟩

/-- C4: `ringbuffer_write_all` fails with `-1` and leaves the state
completely unchanged when the request exceeds the free space; otherwise it
appends exactly the requested bytes and returns their count. It never
performs a partial write. -/
theorem write_all_strict {rb : Ringbuffer} (data : List Nat) (hWF : WF rb) :
    (data.length > rb.size - rb.len →
      ringbuffer_write_all rb data = (-1, rb)) ∧
    (data.length ≤ rb.size - rb.len →
      (ringbuffer_write_all rb data).1 = Int.ofNat data.length ∧
      abstract (ringbuffer_write_all rb data).2 = abstract rb ++ data ∧
      (ringbuffer_write_all rb data).2.len = rb.len + data.length) := by
  constructor
  · intro hover
    simp only [ringbuffer_write_all]
    rw [if_pos hover]
  · intro hfit
    rw [write_all_fit hfit]
    exact ⟨rfl, abstract_copyIn hWF hfit, copyIn_len _ _⟩

theorem write_all_strict_witness :
    WF (Ringbuffer.mk 4 [0, 0, 0, 0] 0 0 0) ∧
    ringbuffer_write_all (Ringbuffer.mk 4 [0, 0, 0, 0] 0 0 0) [1, 2, 3, 4, 5]
      = (-1, Ringbuffer.mk 4 [0, 0, 0, 0] 0 0 0) := by
  have h := @write_all_strict (Ringbuffer.mk 4 [0, 0, 0, 0] 0 0 0)
    [1, 2, 3, 4, 5] (by decide)
  exact ⟨by decide, h.1 (by decide)⟩

/-- C8: `ringbuffer_peek` performs no assignment to any ring buffer field,
so any number of successive peeks leave the state (length, read index,
write index, storage) unchanged and return identical byte sequences. -/
theorem peek_nondestructive (rb : Ringbuffer) (n : Nat) :
    (ringbuffer_peek rb n).2.2 = rb ∧
    (ringbuffer_peek rb n).2.2.len = rb.len ∧
    (ringbuffer_peek rb n).2.2.ir = rb.ir ∧
    (ringbuffer_peek rb n).2.2.iw = rb.iw ∧
    (ringbuffer_peek rb n).2.2.buffer = rb.buffer ∧
    (∀ k : Nat, (fun s => (ringbuffer_peek s n).2.2)^[k] rb = rb) ∧
    (ringbuffer_peek (ringbuffer_peek rb n).2.2 n).2.1 = (ringbuffer_peek rb n).2.1 := by
  have hst := peek_state rb n
  refine ⟨hst, by rw [hst], by rw [hst], by rw [hst], by rw [hst], ?_, by rw [hst]⟩
  intro k
  induction k with
  | zero => rfl
  | succ k ih => rw [Function.iterate_succ_apply, peek_state, ih]

/-- C1, as stated for every reachable state with enough space, fails on a
non-empty ring buffer: reads are FIFO, so after writing `[2]` to a
reachable state already holding the byte `1`, reading one byte returns
`[1]`, not the byte just written. -/
theorem write_read_nonempty_counterexample :
    Reachable (ringbuffer_write (ringbuffer_init [0, 0, 0, 0]) [1]).2 ∧
    1 ≤ (ringbuffer_write (ringbuffer_init [0, 0, 0, 0]) [1]).2.size
        - (ringbuffer_write (ringbuffer_init [0, 0, 0, 0]) [1]).2.len ∧
    (ringbuffer_read
      (ringbuffer_write (ringbuffer_write (ringbuffer_init [0, 0, 0, 0]) [1]).2 [2]).2 1).2.1
      = [1] ∧
    ([1] : List Nat) ≠ [2] := by
  refine ⟨?_, by decide, by decide, by decide⟩
  exact Reachable.step _ (Op.write [1]) (Reachable.init _ (by decide))

/-- C1 (amended): for every reachable ring buffer state that is empty
(`length = 0`, at an arbitrary index position, so the copied region may
cross the physical end of storage) and every byte sequence of length
`n ≤ capacity`, writing the sequence and then reading `n` bytes yields
exactly that sequence, and the read reports `n` bytes. -/
theorem write_read_roundtrip {rb : Ringbuffer} (data : List Nat)
    (hre : Reachable rb) (hempty : rb.len = 0) (hn : data.length ≤ rb.size) :
    (ringbuffer_read (ringbuffer_write rb data).2 data.length).2.1 = data ∧
    (ringbuffer_read (ringbuffer_write rb data).2 data.length).1 = Int.ofNat data.length := by
  have hWF := WF_reachable hre
  have hWF1 := WF_write data hWF
  have hmin : min data.length (rb.size - rb.len) = data.length := by omega
  have habs1 : abstract (ringbuffer_write rb data).2 = data := by
    rw [abstract_write data hWF, hmin, abstract_empty hempty, List.nil_append,
      List.take_length]
  have hlen1 : (ringbuffer_write rb data).2.len = data.length := by
    rw [write_eq, copyIn_len, List.length_take, hempty]
    omega
  rw [read_eq data.length hWF1, hlen1, Nat.min_self, habs1, List.take_length]
  exact ⟨rfl, rfl⟩

theorem write_read_roundtrip_witness :
    (ringbuffer_read (ringbuffer_write (ringbuffer_init [5, 5, 5, 5]) [9, 9, 9]).2 3).2.2.len = 0 ∧
    ([1, 2, 3] : List Nat).length
      ≤ (ringbuffer_read (ringbuffer_write (ringbuffer_init [5, 5, 5, 5]) [9, 9, 9]).2 3).2.2.size ∧
    (ringbuffer_read
      (ringbuffer_write
        (ringbuffer_read (ringbuffer_write (ringbuffer_init [5, 5, 5, 5]) [9, 9, 9]).2 3).2.2
        [1, 2, 3]).2 3).2.1 = [1, 2, 3] := by
  have hre : Reachable
      (ringbuffer_read (ringbuffer_write (ringbuffer_init [5, 5, 5, 5]) [9, 9, 9]).2 3).2.2 :=
    Reachable.step _ (Op.read 3)
      (Reachable.step _ (Op.write [9, 9, 9]) (Reachable.init _ (by decide)))
  exact ⟨by decide, by decide, (write_read_roundtrip [1, 2, 3] hre (by decide) (by decide)).1⟩

theorem szLen_eq : szLen = 8 := rfl

theorem szMod_eq : szMod = 18446744073709551616 := by norm_num [szMod]

theorem intOfNat_not_neg (n : Nat) : ¬ (Int.ofNat n < 0) := by
  rw [Int.ofNat_eq_natCast]
  omega

theorem write_block_success {rb : Ringbuffer} {block : List Nat} (hWF : WF rb)
    (hfit : block.length + szLen ≤ rb.size - rb.len) :
    ringbuffer_write_block rb block
      = (Int.ofNat (block.length + szLen),
         rbCopyIn (rbCopyIn rb (natToBytesLE szLen block.length)) block) := by
  have hsm := hWF.2.1
  have hsz8 : szAdd block.length szLen = block.length + szLen :=
    szAdd_eq (by simp only [szLen_eq, szMod_eq] at *; omega)
  have hLE : (natToBytesLE szLen block.length).length = szLen := length_natToBytesLE _ _
  have hfit1 : (natToBytesLE szLen block.length).length ≤ rb.size - rb.len := by
    rw [hLE]; simp only [szLen_eq] at *; omega
  have hlen1 : (rbCopyIn rb (natToBytesLE szLen block.length)).len = rb.len + szLen := by
    rw [copyIn_len, hLE]
  have hsize1 : (rbCopyIn rb (natToBytesLE szLen block.length)).size = rb.size :=
    copyIn_size _ _
  have hfit2 : block.length ≤ (rbCopyIn rb (natToBytesLE szLen block.length)).size
      - (rbCopyIn rb (natToBytesLE szLen block.length)).len := by
    rw [hsize1, hlen1]; simp only [szLen_eq] at *; omega
  simp only [ringbuffer_write_block, hsz8, write_all_fit hfit1, write_all_fit hfit2]
  rw [if_neg (by simp only [szLen_eq] at *; omega), if_neg (intOfNat_not_neg _),
    if_neg (intOfNat_not_neg _)]

/-- C10: a zero-length payload is accepted by `ringbuffer_write_block`,
which writes the `N`-byte prefix of value `0` and reports `N` bytes
written; but `ringbuffer_peek_block_length` then returns `0` for the
buffered block, so `ringbuffer_peek_block` reports no block and
`ringbuffer_discard_block` returns `0` without removing anything: the
zero-payload block is treated as "no block present". -/
theorem zero_length_block_invisible {rb : Ringbuffer} (hWF : WF rb)
    (hempty : rb.len = 0) (hcap : szLen ≤ rb.size) :
    (ringbuffer_write_block rb []).1 = Int.ofNat szLen ∧
    ringbuffer_peek_block_length (ringbuffer_write_block rb []).2 = 0 ∧
    (∀ cap : Nat, ringbuffer_peek_block (ringbuffer_write_block rb []).2 cap
      = (0, [], (ringbuffer_write_block rb []).2)) ∧
    ringbuffer_discard_block (ringbuffer_write_block rb []).2
      = (0, (ringbuffer_write_block rb []).2) := by
  have hsm := hWF.2.1
  have hw : ringbuffer_write_block rb []
      = (Int.ofNat (szLen),
         rbCopyIn (rbCopyIn rb (natToBytesLE szLen 0)) []) := by
    have := @write_block_success rb ([] : List Nat) hWF
      (by simp only [List.length_nil, szLen_eq] at *; omega)
    simpa using this
  have hLE : (natToBytesLE szLen 0).length = szLen := length_natToBytesLE _ _
  have hfit1 : (natToBytesLE szLen 0).length ≤ rb.size - rb.len := by
    rw [hLE]; omega
  have hWF1 : WF (rbCopyIn rb (natToBytesLE szLen 0)) := WF_copyIn hWF hfit1
  have hfit2 : ([] : List Nat).length ≤ (rbCopyIn rb (natToBytesLE szLen 0)).size
      - (rbCopyIn rb (natToBytesLE szLen 0)).len := by
    simp
  have hWF2 : WF (rbCopyIn (rbCopyIn rb (natToBytesLE szLen 0)) []) := WF_copyIn hWF1 hfit2
  have hlen2 : (rbCopyIn (rbCopyIn rb (natToBytesLE szLen 0)) []).len = szLen := by
    rw [copyIn_len, copyIn_len, hLE]
    simp [hempty]
  have habs2 : abstract (rbCopyIn (rbCopyIn rb (natToBytesLE szLen 0)) [])
      = natToBytesLE szLen 0 := by
    rw [abstract_copyIn hWF1 hfit2, abstract_copyIn hWF hfit1, abstract_empty hempty]
    simp
  have hpbl : ringbuffer_peek_block_length (ringbuffer_write_block rb []).2 = 0 := by
    rw [hw]
    simp only [ringbuffer_peek_block_length, peek_eq szLen hWF2, hlen2, Nat.min_self]
    rw [if_neg (by simp)]
    have htake : (natToBytesLE szLen 0).take szLen = natToBytesLE szLen 0 :=
      List.take_of_length_le (by rw [hLE])
    rw [habs2, htake, bytesToNatLE_natToBytesLE_of_lt (by simp [szMod_eq])]
    rw [if_neg (by decide)]
    rfl
  refine ⟨by rw [hw], hpbl, ?_, ?_⟩
  · intro cap
    rw [ringbuffer_peek_block, hpbl]
    simp [szOfInt]
  · rw [ringbuffer_discard_block, hpbl]
    simp [szOfInt]

theorem zero_length_block_invisible_witness :
    WF (Ringbuffer.mk 16 (List.replicate 16 0) 0 3 3) ∧
    ringbuffer_peek_block_length
      (ringbuffer_write_block (Ringbuffer.mk 16 (List.replicate 16 0) 0 3 3) []).2 = 0 := by
  have h := @zero_length_block_invisible
    (Ringbuffer.mk 16 (List.replicate 16 0) 0 3 3) (by decide) (by decide) (by decide)
  exact ⟨by decide, h.2.1⟩

/-- C5: `ringbuffer_read_frame` stores the `int` result of
`ringbuffer_peek_frame` into a `size_t`, so its `plen >= 0` guard is
always true; on a validation failure (here: only 4 bytes buffered, fewer
than the 8-byte prefix) it returns `-1` but still discards
`(8 + hlen + 2^64 - 1) mod 2^64` clamped bytes, emptying the ring buffer
instead of leaving it unchanged. -/
theorem read_frame_failure_discards :
    WF (Ringbuffer.mk 16 ([1, 2, 3, 4] ++ List.replicate 12 0) 4 4 0) ∧
    (ringbuffer_peek_frame (Ringbuffer.mk 16 ([1, 2, 3, 4] ++ List.replicate 12 0) 4 4 0)
      1 4).1 = -1 ∧
    (ringbuffer_read_frame (Ringbuffer.mk 16 ([1, 2, 3, 4] ++ List.replicate 12 0) 4 4 0)
      1 4).1 = -1 ∧
    (ringbuffer_read_frame (Ringbuffer.mk 16 ([1, 2, 3, 4] ++ List.replicate 12 0) 4 4 0)
      1 4).2.2.2.len = 0 ∧
    (ringbuffer_read_frame (Ringbuffer.mk 16 ([1, 2, 3, 4] ++ List.replicate 12 0) 4 4 0)
      1 4).2.2.2
      ≠ Ringbuffer.mk 16 ([1, 2, 3, 4] ++ List.replicate 12 0) 4 4 0 := by
  refine ⟨by decide, by decide, by decide, by decide, by decide⟩

/-- C7: for a buffered block whose declared length (100) exceeds the live
region, `ringbuffer_peek_block_length` returns `-1`, not the `0` returned
when fewer than `N` bytes are buffered — the two cases are distinguishable,
contrary to the specified common `0`; moreover its own callers compare the
result only against `0`, so `ringbuffer_discard_block` misreads the `-1`
as the huge length `2^64 - 1` and discards 7 bytes from the malformed
stream. -/
theorem peek_block_length_malformed_eval :
    WF (Ringbuffer.mk 16 ([7, 7, 7, 7] ++ List.replicate 12 0) 4 4 0) ∧
    ringbuffer_peek_block_length
      (Ringbuffer.mk 16 ([7, 7, 7, 7] ++ List.replicate 12 0) 4 4 0) = 0 ∧
    WF (Ringbuffer.mk 16 (natToBytesLE 8 100 ++ [0] ++ List.replicate 7 0) 9 9 0) ∧
    ringbuffer_peek_block_length
      (Ringbuffer.mk 16 (natToBytesLE 8 100 ++ [0] ++ List.replicate 7 0) 9 9 0) = -1 ∧
    ((-1 : Int) ≠ 0) ∧
    (ringbuffer_discard_block
      (Ringbuffer.mk 16 (natToBytesLE 8 100 ++ [0] ++ List.replicate 7 0) 9 9 0)).1 = 7 ∧
    (ringbuffer_discard_block
      (Ringbuffer.mk 16 (natToBytesLE 8 100 ++ [0] ++ List.replicate 7 0) 9 9 0)).2.len = 2 := by
  refine ⟨by decide, by decide, by decide, by decide, by decide, by decide, by decide⟩

/-- C6, as stated for any ring buffer with enough free space, fails when
the ring buffer is not empty: frames are FIFO, so after a first frame with
header byte `9` is buffered, writing a frame with header byte `7` and then
reading one frame returns the old header `[9]`, not `[7]`, even though the
combined size of the new frame plus prefix (9 bytes) fits the free space
(23 bytes). -/
theorem frame_roundtrip_nonempty_counterexample :
    Reachable (ringbuffer_write_frame (ringbuffer_init (List.replicate 32 0)) [9] []).2 ∧
    szLen + ([7] : List Nat).length + ([] : List Nat).length
      ≤ (ringbuffer_write_frame (ringbuffer_init (List.replicate 32 0)) [9] []).2.size
        - (ringbuffer_write_frame (ringbuffer_init (List.replicate 32 0)) [9] []).2.len ∧
    (ringbuffer_read_frame
      (ringbuffer_write_frame
        (ringbuffer_write_frame (ringbuffer_init (List.replicate 32 0)) [9] []).2 [7] []).2
      1 8).2.1 = [9] ∧
    ([9] : List Nat) ≠ [7] := by
  refine ⟨?_, by decide, by decide, by decide⟩
  exact Reachable.step _ (Op.writeFrame [9] []) (Reachable.init _ (by decide))

theorem write_frame_success {rb : Ringbuffer} {hd pl : List Nat} (hWF : WF rb)
    (hfit : szLen + hd.length + pl.length ≤ rb.size - rb.len) :
    ringbuffer_write_frame rb hd pl
      = (Int.ofNat (hd.length + pl.length + szLen),
         rbCopyIn (rbCopyIn (rbCopyIn rb
           (natToBytesLE szLen (hd.length + pl.length))) hd) pl) := by
  have hsm := hWF.2.1
  have hlenfit : hd.length + pl.length + szLen ≤ rb.size := by omega
  have hlv : szAdd hd.length pl.length = hd.length + pl.length := by
    apply szAdd_eq
    simp only [szLen_eq] at hlenfit
    omega
  have hpre : szAdd szLen (hd.length + pl.length) = szLen + (hd.length + pl.length) := by
    apply szAdd_eq
    simp only [szLen_eq] at hlenfit ⊢
    omega
  have hLE : (natToBytesLE szLen (hd.length + pl.length)).length = szLen :=
    length_natToBytesLE _ _
  have hfit1 : (natToBytesLE szLen (hd.length + pl.length)).length ≤ rb.size - rb.len := by
    rw [hLE]; omega
  have hst1len : (rbCopyIn rb (natToBytesLE szLen (hd.length + pl.length))).len
      = rb.len + szLen := by rw [copyIn_len, hLE]
  have hst1size : (rbCopyIn rb (natToBytesLE szLen (hd.length + pl.length))).size = rb.size :=
    copyIn_size _ _
  have hfit2 : hd.length ≤ (rbCopyIn rb (natToBytesLE szLen (hd.length + pl.length))).size
      - (rbCopyIn rb (natToBytesLE szLen (hd.length + pl.length))).len := by
    rw [hst1size, hst1len]; omega
  have hst2len : (rbCopyIn (rbCopyIn rb (natToBytesLE szLen (hd.length + pl.length))) hd).len
      = rb.len + szLen + hd.length := by rw [copyIn_len, hst1len]
  have hst2size : (rbCopyIn (rbCopyIn rb
      (natToBytesLE szLen (hd.length + pl.length))) hd).size = rb.size := by
    rw [copyIn_size, hst1size]
  have hfit3 : pl.length
      ≤ (rbCopyIn (rbCopyIn rb (natToBytesLE szLen (hd.length + pl.length))) hd).size
        - (rbCopyIn (rbCopyIn rb (natToBytesLE szLen (hd.length + pl.length))) hd).len := by
    rw [hst2size, hst2len]; omega
  simp only [ringbuffer_write_frame, hlv, hpre, write_all_fit hfit1, write_all_fit hfit2,
    write_all_fit hfit3]
  rw [if_neg (by omega), if_neg (intOfNat_not_neg _), if_neg (intOfNat_not_neg _),
    if_neg (intOfNat_not_neg _)]

/-- C6 (amended): for an initially empty ring buffer and arbitrary header
`hd` and payload `pl` whose combined size plus the `N`-byte prefix fits
the capacity (with an adequate caller payload buffer),
`ringbuffer_write_frame` reports `N + len(hd) + len(pl)` bytes written,
and `ringbuffer_read_frame` with `hlen = len(hd)` returns header `hd` and
payload `pl` and removes exactly `N + declared_len` bytes
(`declared_len = len(hd) + len(pl)`). -/
theorem write_read_frame_roundtrip {rb : Ringbuffer} (hd pl : List Nat) (max_plen : Nat)
    (hWF : WF rb) (hempty : rb.len = 0)
    (hfit : szLen + hd.length + pl.length ≤ rb.size)
    (hple : pl.length ≤ max_plen) (hmax : hd.length + max_plen < szMod) :
    (ringbuffer_write_frame rb hd pl).1 = Int.ofNat (hd.length + pl.length + szLen) ∧
    (ringbuffer_read_frame (ringbuffer_write_frame rb hd pl).2 hd.length max_plen).2.1 = hd ∧
    (ringbuffer_read_frame (ringbuffer_write_frame rb hd pl).2 hd.length max_plen).2.2.1
      = pl ∧
    (ringbuffer_write_frame rb hd pl).2.len = szLen + (hd.length + pl.length) ∧
    (ringbuffer_read_frame (ringbuffer_write_frame rb hd pl).2 hd.length max_plen).2.2.2.len
      = (ringbuffer_write_frame rb hd pl).2.len - (szLen + (hd.length + pl.length)) := by
  have hsm := hWF.2.1
  have hw := @write_frame_success rb hd pl hWF
    (show szLen + hd.length + pl.length ≤ rb.size - rb.len by omega)
  have hLE : (natToBytesLE szLen (hd.length + pl.length)).length = szLen :=
    length_natToBytesLE _ _
  have hfit1 : (natToBytesLE szLen (hd.length + pl.length)).length ≤ rb.size - rb.len := by
    rw [hLE]; omega
  have hWF1 := WF_copyIn hWF hfit1
  have hst1len : (rbCopyIn rb (natToBytesLE szLen (hd.length + pl.length))).len
      = szLen := by rw [copyIn_len, hLE, hempty, Nat.zero_add]
  have hst1size : (rbCopyIn rb (natToBytesLE szLen (hd.length + pl.length))).size = rb.size :=
    copyIn_size _ _
  have hfit2 : hd.length ≤ (rbCopyIn rb (natToBytesLE szLen (hd.length + pl.length))).size
      - (rbCopyIn rb (natToBytesLE szLen (hd.length + pl.length))).len := by
    rw [hst1size, hst1len]; omega
  have hWF2 := WF_copyIn hWF1 hfit2
  have hst2len : (rbCopyIn (rbCopyIn rb (natToBytesLE szLen (hd.length + pl.length))) hd).len
      = szLen + hd.length := by rw [copyIn_len, hst1len]
  have hst2size : (rbCopyIn (rbCopyIn rb
      (natToBytesLE szLen (hd.length + pl.length))) hd).size = rb.size := by
    rw [copyIn_size, hst1size]
  have hfit3 : pl.length
      ≤ (rbCopyIn (rbCopyIn rb (natToBytesLE szLen (hd.length + pl.length))) hd).size
        - (rbCopyIn (rbCopyIn rb (natToBytesLE szLen (hd.length + pl.length))) hd).len := by
    rw [hst2size, hst2len]; omega
  have hWF3 := WF_copyIn hWF2 hfit3
  set st3 := rbCopyIn (rbCopyIn (rbCopyIn rb
    (natToBytesLE szLen (hd.length + pl.length))) hd) pl with hst3def
  have hst3len : st3.len = szLen + (hd.length + pl.length) := by
    rw [hst3def, copyIn_len, hst2len]
    omega
  have habs3 : abstract st3
      = (natToBytesLE szLen (hd.length + pl.length) ++ hd) ++ pl := by
    rw [hst3def, abstract_copyIn hWF2 hfit3, abstract_copyIn hWF1 hfit2,
      abstract_copyIn hWF hfit1, abstract_empty hempty, List.nil_append]
  have htake8 : (abstract st3).take szLen = natToBytesLE szLen (hd.length + pl.length) := by
    rw [habs3, List.take_append_of_le_length (by rw [List.length_append, hLE]; omega),
      List.take_append_of_le_length (by rw [hLE]),
      List.take_of_length_le (by rw [hLE])]
  have hdrop8 : (abstract st3).drop szLen = hd ++ pl := by
    rw [habs3, List.append_assoc]
    exact List.drop_left' hLE
  have hdrop8h : (abstract st3).drop (szLen + hd.length) = pl := by
    rw [habs3]
    exact List.drop_left' (by rw [List.length_append, hLE])
  have hbl : bytesToNatLE ((abstract st3).take szLen) = hd.length + pl.length := by
    rw [htake8]
    exact bytesToNatLE_natToBytesLE_of_lt (by omega)
  have hpf : ringbuffer_peek_frame st3 hd.length max_plen = (Int.ofNat pl.length, hd, pl) := by
    simp only [ringbuffer_peek_frame, peek_eq szLen hWF3, hst3len]
    have hm8 : min szLen (szLen + (hd.length + pl.length)) = szLen := by omega
    rw [hm8]
    rw [if_neg (by simp)]
    rw [hbl]
    rw [if_neg (by
      rw [szAdd_eq (show hd.length + pl.length + szLen < szMod by
        simp only [szLen_eq] at *; omega)]
      omega)]
    rw [if_neg (by
      rw [szAdd_eq hmax]
      omega)]
    have hoff1 : szLen ≤ st3.size := by
      rw [hst3def, copyIn_size, hst2size]
      simp only [szLen_eq] at *; omega
    have hoff2 : szAdd szLen hd.length ≤ st3.size := by
      rw [szAdd_eq (show szLen + hd.length < szMod by simp only [szLen_eq] at *; omega),
        hst3def, copyIn_size, hst2size]
      simp only [szLen_eq] at *; omega
    rw [peekOffset_eq szLen hd.length hWF3 hoff1]
    rw [peekOffset_eq (szAdd szLen hd.length) (szSub (hd.length + pl.length) hd.length)
      hWF3 hoff2]
    have hsub : szSub (hd.length + pl.length) hd.length = pl.length := by
      rw [szSub_eq (by omega) (by simp only [szLen_eq] at *; omega)]
      omega
    have hmh : min hd.length (st3.len - szLen) = hd.length := by
      rw [hst3len]; omega
    have hadd : szAdd szLen hd.length = szLen + hd.length :=
      szAdd_eq (by simp only [szLen_eq] at *; omega)
    have hmp : min (szSub (hd.length + pl.length) hd.length)
        (st3.len - szAdd szLen hd.length) = pl.length := by
      rw [hsub, hadd, hst3len]; omega
    rw [hmh, hmp, hadd, hdrop8, hdrop8h]
    rw [List.take_left, List.take_length]
  have hdarg : szAdd (szAdd szLen hd.length) pl.length
      = szLen + hd.length + pl.length := by
    have h1 : szAdd szLen hd.length = szLen + hd.length :=
      szAdd_eq (show szLen + hd.length < szMod by simp only [szLen_eq] at *; omega)
    have h2 : szAdd (szLen + hd.length) pl.length = szLen + hd.length + pl.length :=
      szAdd_eq (show szLen + hd.length + pl.length < szMod by
        simp only [szLen_eq] at *; omega)
    rw [h1, h2]
  have hread : ringbuffer_read_frame st3 hd.length max_plen
      = (intOfSz pl.length, hd, pl,
         (ringbuffer_discard st3 (szLen + hd.length + pl.length)).2) := by
    simp only [ringbuffer_read_frame, hpf]
    rw [szOfInt_ofNat (show pl.length < szMod by simp only [szLen_eq] at *; omega)]
    rw [if_pos (Nat.zero_le _), hdarg]
  rw [hw]
  refine ⟨rfl, ?_, ?_, hst3len, ?_⟩
  · show (ringbuffer_read_frame st3 hd.length max_plen).2.1 = hd
    rw [hread]
  · show (ringbuffer_read_frame st3 hd.length max_plen).2.2.1 = pl
    rw [hread]
  · show (ringbuffer_read_frame st3 hd.length max_plen).2.2.2.len = st3.len - _
    rw [hread, discard_eq _ hWF3]
    show st3.len - min (szLen + hd.length + pl.length) st3.len
        = st3.len - (szLen + (hd.length + pl.length))
    rw [hst3len]
    omega

theorem write_read_frame_roundtrip_witness :
    WF (Ringbuffer.mk 16 (List.replicate 16 0) 0 10 10) ∧
    (ringbuffer_read_frame
      (ringbuffer_write_frame (Ringbuffer.mk 16 (List.replicate 16 0) 0 10 10)
        [7, 8] [1, 2, 3]).2 2 5).2.1 = [7, 8] ∧
    (ringbuffer_read_frame
      (ringbuffer_write_frame (Ringbuffer.mk 16 (List.replicate 16 0) 0 10 10)
        [7, 8] [1, 2, 3]).2 2 5).2.2.1 = [1, 2, 3] := by
  have h := @write_read_frame_roundtrip (Ringbuffer.mk 16 (List.replicate 16 0) 0 10 10)
    [7, 8] [1, 2, 3] 5 (by decide) (by decide) (by decide) (by decide) (by decide)
  exact ⟨by decide, h.2.1, h.2.2.1⟩

theorem wrapSucc_eq {sz i : Nat} (hi : i < sz) : wrapSucc sz i = (i + 1) % sz := by
  rw [wrapSucc]
  split
  · have h1 : i + 1 = sz := by omega
    rw [h1, Nat.mod_self]
  · rw [Nat.mod_eq_of_lt (by omega)]

theorem wrapSucc_lt {sz i : Nat} (hsz : 0 < sz) : wrapSucc sz i < sz := by
  rw [wrapSucc]
  split <;> omega

theorem findMatchAt_iff {buf : List Nat} {sz : Nat} (hsz : 0 < sz) :
    ∀ (pat : List Nat) (i : Nat), i < sz →
      (findMatchAt buf sz pat i = true
        ↔ ∀ j < pat.length, buf.getD ((i + j) % sz) 0 = pat.getD j 0) := by
  intro pat
  induction pat with
  | nil =>
    intro i hi
    simp [findMatchAt]
  | cons p ps ih =>
    intro i hi
    rw [findMatchAt]
    by_cases hp : buf.getD i 0 = p
    · rw [if_pos hp, ih (wrapSucc sz i) (wrapSucc_lt hsz)]
      constructor
      · intro h j hj
        cases j with
        | zero =>
          have h0 : (i + 0) % sz = i := by
            rw [Nat.add_zero]
            exact Nat.mod_eq_of_lt hi
          rw [h0]
          simpa using hp
        | succ j =>
          have hj' : j < ps.length := by simpa using hj
          have hx := h j hj'
          rw [wrapSucc_eq hi, Nat.mod_add_mod] at hx
          have hidx : i + 1 + j = i + (j + 1) := by omega
          rw [hidx] at hx
          simpa using hx
      · intro h j hj
        have hx := h (j + 1) (by simpa using Nat.succ_lt_succ hj)
        rw [wrapSucc_eq hi, Nat.mod_add_mod]
        have hidx : i + 1 + j = i + (j + 1) := by omega
        rw [hidx]
        simpa using hx
    · rw [if_neg hp]
      simp only [Bool.false_eq_true, false_iff]
      intro h
      have hx := h 0 (by simp)
      have h0 : (i + 0) % sz = i := by
        rw [Nat.add_zero]
        exact Nat.mod_eq_of_lt hi
      rw [h0] at hx
      exact hp (by simpa using hx)

theorem list_eq_of_getD {l₁ l₂ : List Nat} (hlen : l₁.length = l₂.length)
    (h : ∀ j < l₂.length, l₁.getD j 0 = l₂.getD j 0) : l₁ = l₂ := by
  apply List.ext_get?_iff.mpr
  intro n
  by_cases hn : n < l₂.length
  · have hx := h n hn
    rw [List.getD_eq_get?, List.getD_eq_get?] at hx
    rw [List.get?_eq_get (show n < l₁.length by omega), List.get?_eq_get hn] at hx ⊢
    simpa using hx
  · rw [List.get?_eq_none.mpr (by omega), List.get?_eq_none.mpr (by omega)]

theorem occursAt_iff_mod {rb : Ringbuffer} (hWF : WF rb) (hsz : 0 < rb.size)
    (pat : List Nat) (o : Nat) :
    occursAt rb pat o
      ↔ (o + pat.length ≤ rb.len ∧
         ∀ j < pat.length, rb.buffer.getD ((rb.ir + o + j) % rb.size) 0 = pat.getD j 0) := by
  have hbuf := hWF.1
  have hlen := hWF.2.2.1
  have hlabs : (abstract rb).length = rb.len := abstract_length hWF
  unfold occursAt
  apply and_congr_right
  intro hol
  have hchain : ∀ j, j < pat.length →
      (((abstract rb).drop o).take pat.length).getD j 0
        = rb.buffer.getD ((rb.ir + o + j) % rb.size) 0 := by
    intro j hj
    rw [List.getD_eq_get?, List.get?_take hj, List.get?_drop]
    rw [abstract, List.get?_take (show o + j < rb.len by omega),
      List.get?_rotate (show o + j < rb.buffer.length by rw [hbuf]; omega)]
    rw [List.getD_eq_get?, hbuf]
    have hidx : (o + j + rb.ir) % rb.size = (rb.ir + o + j) % rb.size := by
      congr 1
      omega
    rw [hidx]
  have hlent : (((abstract rb).drop o).take pat.length).length = pat.length := by
    rw [List.length_take, List.length_drop, hlabs]
    omega
  constructor
  · intro heq j hj
    rw [← hchain j hj, heq]
  · intro hpt
    apply list_eq_of_getD hlent
    intro j hj
    rw [hchain j hj]
    exact hpt j hj

theorem findLoop_none {rb : Ringbuffer} {pat : List Nat} (hWF : WF rb) (hsz : 0 < rb.size)
    (hle : pat.length ≤ rb.len) :
    ∀ (fuel offset : Nat), rb.len - pat.length + 1 - offset ≤ fuel →
      (∀ o, offset ≤ o → ¬ occursAt rb pat o) →
      findLoop rb.buffer rb.size rb.len pat offset ((rb.ir + offset) % rb.size) = -1 := by
  intro fuel
  induction fuel with
  | zero =>
    intro offset hf hnone
    rw [findLoop, if_neg (by omega)]
  | succ fuel ih =>
    intro offset hf hnone
    rw [findLoop]
    by_cases hc : offset ≤ rb.len - pat.length
    · rw [if_pos hc]
      have hidx : (rb.ir + offset) % rb.size < rb.size := Nat.mod_lt _ hsz
      have hmatch : ¬ (findMatchAt rb.buffer rb.size pat ((rb.ir + offset) % rb.size) = true) := by
        rw [findMatchAt_iff hsz pat _ hidx]
        intro hall
        apply hnone offset le_rfl
        rw [occursAt_iff_mod hWF hsz]
        refine ⟨by omega, ?_⟩
        intro j hj
        have hx := hall j hj
        rw [Nat.mod_add_mod] at hx
        exact hx
      rw [if_neg hmatch]
      have hws : wrapSucc rb.size ((rb.ir + offset) % rb.size)
          = (rb.ir + (offset + 1)) % rb.size := by
        rw [wrapSucc_eq hidx, Nat.mod_add_mod]
        congr 1
      rw [hws]
      exact ih (offset + 1) (by omega) (fun o ho => hnone o (by omega))
    · rw [if_neg hc]

theorem findLoop_found {rb : Ringbuffer} {pat : List Nat} (hWF : WF rb) (hsz : 0 < rb.size)
    (hle : pat.length ≤ rb.len) :
    ∀ (fuel offset o : Nat), rb.len - pat.length + 1 - offset ≤ fuel →
      offset ≤ o → occursAt rb pat o →
      (∀ o', offset ≤ o' → o' < o → ¬ occursAt rb pat o') →
      findLoop rb.buffer rb.size rb.len pat offset ((rb.ir + offset) % rb.size)
        = Int.ofNat o := by
  intro fuel
  induction fuel with
  | zero =>
    intro offset o hf hoo hocc hmin
    exfalso
    have h1 := hocc.1
    omega
  | succ fuel ih =>
    intro offset o hf hoo hocc hmin
    have hobound := hocc.1
    rw [findLoop]
    rw [if_pos (by omega)]
    have hidx : (rb.ir + offset) % rb.size < rb.size := Nat.mod_lt _ hsz
    by_cases heq : offset = o
    · subst heq
      have hmatch : findMatchAt rb.buffer rb.size pat ((rb.ir + offset) % rb.size) = true := by
        rw [findMatchAt_iff hsz pat _ hidx]
        intro j hj
        rw [Nat.mod_add_mod]
        exact ((occursAt_iff_mod hWF hsz pat offset).mp hocc).2 j hj
      rw [if_pos hmatch]
    · have hlt : offset < o := by omega
      have hmatch : ¬ (findMatchAt rb.buffer rb.size pat ((rb.ir + offset) % rb.size) = true) := by
        rw [findMatchAt_iff hsz pat _ hidx]
        intro hall
        apply hmin offset le_rfl hlt
        rw [occursAt_iff_mod hWF hsz]
        refine ⟨by omega, ?_⟩
        intro j hj
        have hx := hall j hj
        rw [Nat.mod_add_mod] at hx
        exact hx
      rw [if_neg hmatch]
      have hws : wrapSucc rb.size ((rb.ir + offset) % rb.size)
          = (rb.ir + (offset + 1)) % rb.size := by
        rw [wrapSucc_eq hidx, Nat.mod_add_mod]
        congr 1
      rw [hws]
      exact ih (offset + 1) o (by omega) (by omega) hocc
        (fun o' h1 h2 => hmin o' (by omega) h2)

/-- C9, as stated, fails on the code in two ways. First, the search does
not honour wraparound when the starting position `read_index + offset`
itself lies past the physical end of storage: the code reads
`buffer[read_index + offset]` without wrapping (an out-of-range access)
and then resets the search index to `0`, losing the position, so with
capacity 2, content wrapped at `read_index = 1` and `offset = 1`, the
pattern occurring at offset 1 is reported as not found. Second, an
invalid pattern (empty, or longer than the buffered length) yields the
same `-1` as not-found, not a distinct failure indication. -/
theorem find_counterexample :
    (WF (Ringbuffer.mk 2 [5, 6] 2 1 1) ∧
     occursAt (Ringbuffer.mk 2 [5, 6] 2 1 1) [5] 1 ∧
     ringbuffer_find (Ringbuffer.mk 2 [5, 6] 2 1 1) 1 [5] = -1) ∧
    (ringbuffer_find (Ringbuffer.mk 2 [5, 6] 2 0 0) 0 [] = -1 ∧
     (∀ o, ¬ occursAt (Ringbuffer.mk 2 [5, 6] 2 0 0) [9] o) ∧
     ringbuffer_find (Ringbuffer.mk 2 [5, 6] 2 0 0) 0 [9] = -1) := by
  refine ⟨⟨by decide, by decide, ?_⟩, by decide, ?_, ?_⟩
  · simp [ringbuffer_find, findLoop, findMatchAt, wrapSucc]
  · intro o ho
    have h1 : o + 1 ≤ 2 := ho.1
    have h2 : o = 0 ∨ o = 1 := by omega
    rcases h2 with h | h <;> subst h <;> exact absurd ho (by decide)
  · simp [ringbuffer_find, findLoop, findMatchAt, wrapSucc]

/-- C9 (amended): an empty pattern or a pattern longer than the buffered
length makes `ringbuffer_find` return `-1` — the same indication as
not-found. Otherwise, provided the starting position
`read_index + offset` does not pass the physical end of storage,
`ringbuffer_find` returns the smallest offset at or past `offset` at
which the pattern occurs in the live region (honouring wraparound during
the scan), and `-1` when no occurrence exists. -/
theorem find_spec {rb : Ringbuffer} (offset : Nat) (pat : List Nat) (hWF : WF rb) :
    (pat.length = 0 ∨ rb.len < pat.length → ringbuffer_find rb offset pat = -1) ∧
    (pat ≠ [] → pat.length ≤ rb.len → rb.ir + offset < rb.size →
      ((∀ o, offset ≤ o → ¬ occursAt rb pat o) → ringbuffer_find rb offset pat = -1) ∧
      (∀ o, offset ≤ o → occursAt rb pat o →
        (∀ o', offset ≤ o' → o' < o → ¬ occursAt rb pat o') →
        ringbuffer_find rb offset pat = Int.ofNat o)) := by
  constructor
  · intro h
    rw [ringbuffer_find, if_pos h]
  · intro hne hlen hlt
    have hsz : 0 < rb.size := by omega
    have hne' : pat.length ≠ 0 := by simpa using hne
    have hguard : ¬ (pat.length = 0 ∨ pat.length > rb.len) := by
      rintro (h | h)
      · exact hne' h
      · omega
    have hmod : rb.ir + offset = (rb.ir + offset) % rb.size := (Nat.mod_eq_of_lt hlt).symm
    constructor
    · intro hnone
      rw [ringbuffer_find, if_neg hguard, hmod]
      exact findLoop_none hWF hsz hlen (rb.len - pat.length + 1 - offset) offset le_rfl hnone
    · intro o hoo hocc hmin
      rw [ringbuffer_find, if_neg hguard, hmod]
      exact findLoop_found hWF hsz hlen (rb.len - pat.length + 1 - offset) offset o le_rfl
        hoo hocc hmin

theorem find_spec_witness :
    WF (Ringbuffer.mk 4 [7, 6, 9, 8] 4 2 2) ∧
    occursAt (Ringbuffer.mk 4 [7, 6, 9, 8] 4 2 2) [8, 7] 1 ∧
    ringbuffer_find (Ringbuffer.mk 4 [7, 6, 9, 8] 4 2 2) 1 [8, 7] = Int.ofNat 1 := by
  have h := @find_spec (Ringbuffer.mk 4 [7, 6, 9, 8] 4 2 2) 1 [8, 7] (by decide)
  refine ⟨by decide, by decide, ?_⟩
  exact (h.2 (by decide) (by decide) (by decide)).2 1 le_rfl (by decide)
    (fun o' h1 h2 => absurd (Nat.lt_of_le_of_lt h1 h2) (Nat.lt_irrefl 1))

end Ringbuf
